import Mathlib

/-!
FastIO: fast digital I/O and the two shift-out protocols.

A shallow embedding of `FastIO.h` / `FastIO.cpp` in the native (AVR, non
`FIO_FALLBACK`) configuration.

* A port register is a byte stored at an address; the memory of port registers
  is a function from addresses to `Nat`, and every store truncates to 8 bits.
* `fio_register` (a `volatile uint8_t *`) is the address, `fio_bit` the mask.
* C integer promotion is explicit: operands of `~`, `&`, `|`, `^` are promoted
  to the 16-bit `int` of the AVR, represented by its two's-complement bit
  pattern, and the result is truncated with `% 256` when stored.
* Calls into the Arduino core (`delayMicroseconds`, `cli`, `pinMode`,
  `digitalWrite`) and every volatile store are recorded in a trace, each entry
  with the value the status register had at that moment.
-/

namespace Fio

/-! ## Constants -/

/-- Arduino level `LOW`. -/
def LOW : Nat := 0

/-- Arduino level `HIGH`. -/
def HIGH : Nat := 1

/-- Arduino pin mode `INPUT`. -/
def INPUT : Nat := 0

/-- Arduino pin mode `OUTPUT`. -/
def OUTPUT : Nat := 1

/-- The sentinel of `FastIO.h` line 59: `#define SKIP 0x23`. -/
def SKIP : Nat := 0x23

/-! ## Machine state and trace -/

/-- Observable operations of the routines. -/
inductive Op where
  /-- a volatile store of `val` to the port register at address `reg` -/
  | store (reg val : Nat)
  /-- a call `delayMicroseconds(us)` -/
  | delay (us : Nat)
  /-- a call `cli()` -/
  | cli
  /-- an assignment `SREG = val` -/
  | setSREG (val : Nat)
  /-- a call `pinMode(pin, mode)` -/
  | pinMode (pin mode : Nat)
  /-- a call `digitalWrite(pin, val)` -/
  | digitalWrite (pin val : Nat)
  deriving DecidableEq, Repr

/-- One trace entry: the operation and the status register while it ran
(for `cli` and `setSREG`: the status register they leave). -/
structure Step where
  op : Op
  sreg : Nat
  deriving DecidableEq, Repr

/-- The state the routines act on. -/
structure Machine where
  /-- port registers, by address -/
  mem : Nat → Nat
  /-- the AVR status register `SREG`; bit 7 is the global interrupt flag -/
  sreg : Nat
  /-- direction of each Arduino pin, as set by `pinMode` -/
  pinModes : Nat → Nat
  /-- output level of each Arduino pin, as set by `digitalWrite` -/
  pinLevels : Nat → Nat
  /-- everything done so far, oldest first -/
  trace : List Step

/-- A volatile store `*reg = val`. -/
def Machine.store (s : Machine) (reg val : Nat) : Machine :=
  { s with mem := Function.update s.mem reg val,
           trace := s.trace ++ [⟨Op.store reg val, s.sreg⟩] }

/-- The Arduino call `delayMicroseconds(us)`: time passes, nothing else changes. -/
def delayMicroseconds (s : Machine) (us : Nat) : Machine :=
  { s with trace := s.trace ++ [⟨Op.delay us, s.sreg⟩] }

/-- The AVR `cli()`: clears the global interrupt flag, bit 7 of `SREG`. -/
def cli (s : Machine) : Machine :=
  { s with sreg := s.sreg &&& 0x7F,
           trace := s.trace ++ [⟨Op.cli, s.sreg &&& 0x7F⟩] }

/-- The assignment `SREG = val`. -/
def setSREG (s : Machine) (val : Nat) : Machine :=
  { s with sreg := val, trace := s.trace ++ [⟨Op.setSREG val, val⟩] }

/-- The Arduino call `pinMode(pin, mode)`: sets the direction of the pin and
leaves its output level alone. -/
def pinMode (s : Machine) (pin mode : Nat) : Machine :=
  { s with pinModes := Function.update s.pinModes pin mode,
           trace := s.trace ++ [⟨Op.pinMode pin mode, s.sreg⟩] }

/-- The Arduino call `digitalWrite(pin, val)`: drives the pin `LOW` when `val`
is `LOW` and `HIGH` otherwise. -/
def digitalWrite (s : Machine) (pin val : Nat) : Machine :=
  { s with pinLevels := Function.update s.pinLevels pin (if val = LOW then LOW else HIGH),
           trace := s.trace ++ [⟨Op.digitalWrite pin val, s.sreg⟩] }

/-- The steps a call added to the trace, given the states before and after. -/
def emitted (s s' : Machine) : List Step :=
  s'.trace.drop s.trace.length

/-! ## Fast signal primitives (`FastIO.h` lines 119-123, `FastIO.cpp` lines 50-69) -/

/-- Macro `#define fio_digitalWrite_LOW(reg,bit) *reg &= ~bit`.  `bit` is promoted to
`int`, complemented (all 16 bits), and-ed with the promoted register value, and
the low byte is stored. -/
def fio_digitalWrite_LOW (s : Machine) (reg bit : Nat) : Machine :=
  s.store reg ((s.mem reg &&& (bit ^^^ 0xFFFF)) % 256)

/-- Macro `#define fio_digitalWrite_HIGH(reg,bit) *reg |= bit`. -/
def fio_digitalWrite_HIGH (s : Machine) (reg bit : Nat) : Machine :=
  s.store reg ((s.mem reg ||| bit) % 256)

/-- Macro `#define fio_digitalWrite_SWITCH(reg,bit) *reg ^= bit`. -/
def fio_digitalWrite_SWITCH (s : Machine) (reg bit : Nat) : Machine :=
  s.store reg ((s.mem reg ^^^ bit) % 256)

/-- Function `fio_digitalWrite` (`FastIO.cpp` lines 50-60), native branch. -/
def fio_digitalWrite (s : Machine) (pinRegister pinBit value : Nat) : Machine :=
  if value = LOW then
    fio_digitalWrite_LOW s pinRegister pinBit
  else
    fio_digitalWrite_HIGH s pinRegister pinBit

/-- Function `fio_digitalRead` (`FastIO.cpp` lines 62-69), native branch, on a register
value: `if (*pinRegister & pinBit) return HIGH; return LOW;`. -/
def fio_digitalRead (r pinBit : Nat) : Nat :=
  if r &&& pinBit ≠ 0 then HIGH else LOW

/-! ## Pin resolver (`FastIO.cpp` lines 19-28) -/

/-- Function `fio_pinToOutputRegister` (`FastIO.cpp` lines 19-28).  The pin tables of the
Arduino core (`portOutputRegister`, `digitalPinToPort`) are parameters;
`fallback` says whether `FIO_FALLBACK` is defined.  The result is the state
after the call and the returned register. -/
def fio_pinToOutputRegister (fallback : Bool) (portOutputRegister digitalPinToPort : Nat → Nat)
    (s : Machine) (pin initial_state : Nat) : Machine × Nat :=
  let s1 := pinMode s pin OUTPUT
  let s2 := if initial_state ≠ SKIP then digitalWrite s1 pin initial_state else s1
  (s2, if fallback then 0 else portOutputRegister (digitalPinToPort pin))

/-! ## Clocked shift-out (`FastIO.cpp` lines 71-94) -/

/-- The C operator `!` on an integer. -/
def cNot (x : Nat) : Nat := if x = 0 then 1 else 0

/-- Body of the loop of `fio_shiftOut` for loop index `i` (lines 77-80). -/
def fio_shiftOut_body (dataRegister dataBit clockRegister clockBit value : Nat)
    (s : Machine) (i : Nat) : Machine :=
  let s1 := fio_digitalWrite s dataRegister dataBit (cNot (cNot (value &&& (1 <<< i))))
  let s2 := fio_digitalWrite_HIGH s1 clockRegister clockBit
  fio_digitalWrite_SWITCH s2 clockRegister clockBit

/-- The loop `for(int8_t i = 7; i>-1; --i)` of `fio_shiftOut`, entered with
`i = n - 1`: it runs the body for `i = n-1, ..., 0`. -/
def fio_shiftOut_loop (dataRegister dataBit clockRegister clockBit value : Nat) :
    Nat → Machine → Machine
  | 0, s => s
  | i + 1, s =>
    fio_shiftOut_loop dataRegister dataBit clockRegister clockBit value i
      (fio_shiftOut_body dataRegister dataBit clockRegister clockBit value s i)

/-- Function `fio_shiftOut` with a value (`FastIO.cpp` lines 71-85). -/
def fio_shiftOut (s : Machine) (dataRegister dataBit clockRegister clockBit value : Nat) :
    Machine :=
  fio_shiftOut_loop dataRegister dataBit clockRegister clockBit value 8 s

/-- The loop `for(uint8_t i = 0; i<8; ++i)` of the zero-fill `fio_shiftOut`,
with `n = 8 - i` iterations still to run. -/
def fio_shiftOut_zero_loop (clockRegister clockBit : Nat) : Nat → Machine → Machine
  | 0, s => s
  | n + 1, s =>
    fio_shiftOut_zero_loop clockRegister clockBit n
      (fio_digitalWrite_SWITCH (fio_digitalWrite_HIGH s clockRegister clockBit)
        clockRegister clockBit)

/-- The zero-fill overload of `fio_shiftOut` (`FastIO.cpp` lines 87-94). -/
def fio_shiftOut_zero (s : Machine) (dataRegister dataBit clockRegister clockBit : Nat) :
    Machine :=
  fio_shiftOut_zero_loop clockRegister clockBit 8 (fio_digitalWrite_LOW s dataRegister dataBit)

/-! ## Shift1 (`FastIO.cpp` lines 96-145) -/

/-- Function `fio_shiftOut1_init` on a resolved pin (`FastIO.cpp` lines 96-101). -/
def fio_shiftOut1_init (s : Machine) (shift1Register shift1Bit : Nat) : Machine :=
  delayMicroseconds (fio_digitalWrite s shift1Register shift1Bit HIGH) 300

/-- Body of the loop of `fio_shiftOut1` for loop index `i` (lines 119-134). -/
def fio_shiftOut1_body (shift1Register shift1Bit value : Nat) (s : Machine) (i : Nat) :
    Machine :=
  if LOW = cNot (cNot (value &&& (1 <<< i))) then
    let s1 := fio_digitalWrite_LOW s shift1Register shift1Bit
    let s2 := delayMicroseconds s1 14
    let s3 := fio_digitalWrite_HIGH s2 shift1Register shift1Bit
    delayMicroseconds s3 29
  else
    let s1 := fio_digitalWrite_LOW s shift1Register shift1Bit
    let s2 := fio_digitalWrite_HIGH s1 shift1Register shift1Bit
    delayMicroseconds s2 14

/-- The loop `for(int8_t i = 7; i>0; --i)` of `fio_shiftOut1`, entered with
loop index `i`: it runs the body for `i, i-1, ..., 1`. -/
def fio_shiftOut1_loop (shift1Register shift1Bit value : Nat) : Nat → Machine → Machine
  | 0, s => s
  | i + 1, s =>
    fio_shiftOut1_loop shift1Register shift1Bit value i
      (fio_shiftOut1_body shift1Register shift1Bit value s (i + 1))

/-- Function `fio_shiftOut1` on a resolved pin (`FastIO.cpp` lines 105-145). -/
def fio_shiftOut1 (s : Machine) (shift1Register shift1Bit value : Nat) : Machine :=
  let oldSREG := s.sreg
  let s1 := cli s
  let s2 := fio_shiftOut1_loop shift1Register shift1Bit value 7 s1
  let s3 := fio_digitalWrite_LOW s2 shift1Register shift1Bit
  let s4 := delayMicroseconds s3 199
  let s5 := fio_digitalWrite_HIGH s4 shift1Register shift1Bit
  let s6 := delayMicroseconds s5 299
  setSREG s6 oldSREG

/-! ## Observers: what a recorder attached to the lines sees -/

/-- Port registers after one trace step. -/
def applyStep (mem : Nat → Nat) (e : Step) : Nat → Nat :=
  match e.op with
  | Op.store reg val => Function.update mem reg val
  | _ => mem

/-- Port registers after a sequence of trace steps. -/
def replay (mem : Nat → Nat) (t : List Step) : Nat → Nat :=
  t.foldl applyStep mem

/-- The clock edges of a trace, starting from the port registers `mem`: for every
step that changes the level of the clock line, the new clock level and the
level of the data line at that moment. -/
def clockEdges (dataRegister dataBit clockRegister clockBit : Nat) :
    (Nat → Nat) → List Step → List (Nat × Nat)
  | _, [] => []
  | mem, e :: es =>
    let mem' := applyStep mem e
    let rest := clockEdges dataRegister dataBit clockRegister clockBit mem' es
    if fio_digitalRead (mem clockRegister) clockBit
        ≠ fio_digitalRead (mem' clockRegister) clockBit then
      (fio_digitalRead (mem' clockRegister) clockBit,
        fio_digitalRead (mem' dataRegister) dataBit) :: rest
    else rest

/-- The data levels sampled at the rising clock edges of a trace. -/
def risingSamples (dataRegister dataBit clockRegister clockBit : Nat)
    (mem : Nat → Nat) (t : List Step) : List Nat :=
  ((clockEdges dataRegister dataBit clockRegister clockBit mem t).filter
    (fun p => p.1 = HIGH)).map Prod.snd

/-- What a step does to one line. -/
inductive LineEvent where
  /-- the line is driven to a level (`true` is HIGH) -/
  | level (high : Bool)
  /-- the line is held for a number of microseconds -/
  | hold (us : Nat)
  deriving DecidableEq, Repr

/-- The trace as seen on the line `(reg, bit)`: stores to `reg` drive the line
to the level of `bit` in the stored value, delays hold it. -/
def lineView (reg bit : Nat) : List Step → List LineEvent
  | [] => []
  | e :: es =>
    match e.op with
    | Op.store r val =>
      if r = reg then
        LineEvent.level (fio_digitalRead val bit = HIGH) :: lineView reg bit es
      else lineView reg bit es
    | Op.delay us => LineEvent.hold us :: lineView reg bit es
    | _ => lineView reg bit es

/-- Where a pulse decoder is: before the first LOW phase, inside a LOW phase
(with the time held so far), or inside the HIGH phase that follows it. -/
inductive PulsePhase where
  | idle
  | low (lowHold : Nat)
  | high (lowHold highHold : Nat)
  deriving DecidableEq, Repr

/-- Decoder of pulses: a pulse is a LOW phase followed by a HIGH phase, and is
reported as the pair of the microseconds held LOW and held HIGH. -/
def pulsesFrom : PulsePhase → List LineEvent → List (Nat × Nat)
  | PulsePhase.high l h, [] => [(l, h)]
  | _, [] => []
  | PulsePhase.idle, LineEvent.level false :: es => pulsesFrom (PulsePhase.low 0) es
  | PulsePhase.idle, _ :: es => pulsesFrom PulsePhase.idle es
  | PulsePhase.low l, LineEvent.level true :: es => pulsesFrom (PulsePhase.high l 0) es
  | PulsePhase.low l, LineEvent.level false :: es => pulsesFrom (PulsePhase.low l) es
  | PulsePhase.low l, LineEvent.hold us :: es => pulsesFrom (PulsePhase.low (l + us)) es
  | PulsePhase.high l h, LineEvent.level false :: es => (l, h) :: pulsesFrom (PulsePhase.low 0) es
  | PulsePhase.high l h, LineEvent.level true :: es => pulsesFrom (PulsePhase.high l h) es
  | PulsePhase.high l h, LineEvent.hold us :: es => pulsesFrom (PulsePhase.high l (h + us)) es

/-- The pulses of a trace on the line `(reg, bit)`, when the line has the level
`r` holds for it before the trace starts. -/
def pulses (reg bit r : Nat) (t : List Step) : List (Nat × Nat) :=
  pulsesFrom (if fio_digitalRead r bit = HIGH then PulsePhase.idle else PulsePhase.low 0)
    (lineView reg bit t)

/-- Classification of a pulse against a threshold: `0` when the LOW hold is at
least `t` microseconds, `1` otherwise. -/
def classify (t : Nat) (p : Nat × Nat) : Nat :=
  if t ≤ p.1 then 0 else 1

/-- Bit `i` of a value, as a level. -/
def bitOf (value i : Nat) : Nat := (value >>> i) % 2

/-- Bits `n-1, ..., 0` of a value, most significant first. -/
def msbFirst (value : Nat) : Nat → List Nat
  | 0 => []
  | i + 1 => bitOf value i :: msbFirst value i

/-- The clock edges of a sequence of clock pulses, one per data level: a rising
and a falling edge, both with that data level. -/
def edgesOf : List Nat → List (Nat × Nat)
  | [] => []
  | b :: bs => (HIGH, b) :: (LOW, b) :: edgesOf bs

/-- Whether an operation is a pin write or a delay. -/
def Op.isWriteOrDelay : Op → Bool
  | Op.store _ _ => true
  | Op.delay _ => true
  | _ => false

/-- Whether an operation assigns the status register. -/
def Op.isSREGWrite : Op → Bool
  | Op.setSREG _ => true
  | _ => false

/-- The Shift1 pulse of one data bit, by the delays of `FastIO.cpp` lines 119-134:
a `0` bit is held LOW for 14 and HIGH for 29 microseconds, a `1` bit is held LOW
for no delay at all and HIGH for 14 microseconds. -/
def dataPulse (b : Nat) : Nat × Nat :=
  if b = 0 then (14, 29) else (0, 14)

/-- What the loop of `fio_shiftOut1`, entered with loop index `i`, does to the
Shift1 line. -/
def shift1LoopLine (value : Nat) : Nat → List LineEvent
  | 0 => []
  | i + 1 =>
    (if value.testBit (i + 1) then
      [LineEvent.level false, LineEvent.level true, LineEvent.hold 14]
    else
      [LineEvent.level false, LineEvent.hold 14, LineEvent.level true, LineEvent.hold 29])
    ++ shift1LoopLine value i

/-- What a whole call of `fio_shiftOut1` does to the Shift1 line. -/
def shift1Line (value : Nat) : List LineEvent :=
  shift1LoopLine value 7 ++
    [LineEvent.level false, LineEvent.hold 199, LineEvent.level true, LineEvent.hold 299]

/-! ## The display driver: `LCD::setCursor` (`LCD.cpp` lines 208-234) -/

/-- The part of an `LCD` object that `setCursor` reads, and the bytes it has
passed to `command`, oldest first. -/
structure LCD where
  /-- number of columns, set by `begin` -/
  _cols : Nat
  /-- number of lines, set by `begin` -/
  _numlines : Nat
  /-- the values `command` was called with, as the `uint8_t` it receives -/
  commands : List Nat

/-- Table `row_offsetsDef` of `setCursor`, for regular LCDs. -/
def row_offsetsDef : List Nat := [0x00, 0x40, 0x14, 0x54]

/-- Table `row_offsetsLarge` of `setCursor`, for 16x4 LCDs. -/
def row_offsetsLarge : List Nat := [0x00, 0x40, 0x10, 0x50]

/-- Method `LCD::command(uint8_t value)` (`LCD.cpp` lines 433-438): the value,
converted to `uint8_t`, is handed to the transport. -/
def LCD.command (lcd : LCD) (value : Nat) : LCD :=
  { lcd with commands := lcd.commands ++ [value % 256] }

/-- The row `setCursor` indexes its table with (`LCD.cpp` lines 214-217):
`if ( row >= _numlines ) row = _numlines-1;`, the subtraction done in `int` and
the result converted back to `uint8_t`. -/
def LCD.setCursor_row (lcd : LCD) (row : Nat) : Nat :=
  if row ≥ lcd._numlines then (((lcd._numlines : Int) - 1) % 256).toNat else row

/-- Method `LCD::setCursor` (`LCD.cpp` lines 208-234).  The command code
`LCD_SETDDRAMADDR` of `LCD.h` is a parameter.  The result is `none` when the
table would be read outside its four entries. -/
def LCD.setCursor (LCD_SETDDRAMADDR : Nat) (lcd : LCD) (col row : Nat) : Option LCD :=
  let row := lcd.setCursor_row row
  if lcd._cols = 16 ∧ lcd._numlines = 4 then
    match row_offsetsLarge[row]? with
    | some offset => some (lcd.command (LCD_SETDDRAMADDR ||| (col + offset)))
    | none => none
  else
    match row_offsetsDef[row]? with
    | some offset => some (lcd.command (LCD_SETDDRAMADDR ||| (col + offset)))
    | none => none

/-- A 16x4 display with nothing sent yet, used to run the model. -/
def demoLCD16x4 : LCD := { _cols := 16, _numlines := 4, commands := [] }

/-- A board state used to run the model on concrete inputs: port register
`0x25` holds `0xA5`, every other register is clear, interrupts are enabled. -/
def demoMachine : Machine :=
  { mem := fun a => if a = 0x25 then 0xA5 else 0,
    sreg := 0x80,
    pinModes := fun _ => INPUT,
    pinLevels := fun _ => LOW,
    trace := [] }

/-! ## Bits of the stored values -/

theorem testBit_ffff : ∀ j < 16, Nat.testBit 0xFFFF j = true := by decide

theorem testBit_clear (r m j : Nat) (hj : j < 8) :
    ((r &&& (m ^^^ 0xFFFF)) % 256).testBit j = (r.testBit j && !m.testBit j) := by
  have h256 : (256 : Nat) = 2 ^ 8 := by norm_num
  have hb := testBit_ffff j (by omega)
  rw [h256, Nat.testBit_mod_two_pow]
  simp [hj, hb]

theorem testBit_set (r m j : Nat) (hj : j < 8) :
    ((r ||| m) % 256).testBit j = (r.testBit j || m.testBit j) := by
  have h256 : (256 : Nat) = 2 ^ 8 := by norm_num
  rw [h256, Nat.testBit_mod_two_pow]
  simp [hj]

theorem testBit_toggle (r m j : Nat) (hj : j < 8) :
    ((r ^^^ m) % 256).testBit j = (r.testBit j ^^ m.testBit j) := by
  have h256 : (256 : Nat) = 2 ^ 8 := by norm_num
  rw [h256, Nat.testBit_mod_two_pow]
  simp [hj]

theorem testBit_of_lt_256 {x j : Nat} (hx : x < 256) (hj : 8 ≤ j) : x.testBit j = false := by
  apply Nat.testBit_lt_two_pow
  calc x < 256 := hx
    _ = 2 ^ 8 := by norm_num
    _ ≤ 2 ^ j := Nat.pow_le_pow_right (by norm_num) hj

theorem byte_eq_of_testBit {x y : Nat} (hx : x < 256) (hy : y < 256)
    (h : ∀ j < 8, x.testBit j = y.testBit j) : x = y := by
  apply Nat.eq_of_testBit_eq
  intro j
  by_cases hj : j < 8
  · exact h j hj
  · rw [testBit_of_lt_256 hx (by omega), testBit_of_lt_256 hy (by omega)]

theorem and_two_pow_ne_zero (r k : Nat) : (r &&& 2 ^ k ≠ 0) ↔ r.testBit k = true := by
  constructor
  · intro h
    obtain ⟨i, hi⟩ := Nat.ne_zero_implies_bit_true h
    simp [Nat.testBit_two_pow] at hi
    obtain ⟨h1, h2⟩ := hi
    subst h2; exact h1
  · intro h h0
    have := congrArg (fun x => x.testBit k) h0
    simp [Nat.testBit_two_pow, h] at this

theorem fio_digitalRead_two_pow (r k : Nat) :
    fio_digitalRead r (2 ^ k) = if r.testBit k then HIGH else LOW := by
  unfold fio_digitalRead
  by_cases h : r.testBit k = true
  · simp [h, (and_two_pow_ne_zero r k).2 h]
  · have h0 : r &&& 2 ^ k = 0 := by
      by_contra hne
      exact h ((and_two_pow_ne_zero r k).1 hne)
    simp [h, h0]

/-! ## The write primitive -/

theorem mem_store_same (s : Machine) (reg val : Nat) : (s.store reg val).mem reg = val := by
  simp [Machine.store]

theorem mem_store_other (s : Machine) (reg val a : Nat) (h : a ≠ reg) :
    (s.store reg val).mem a = s.mem a := by
  simp [Machine.store, Function.update_noteq h]

/-- C1: in native mode, `fio_digitalWrite` on a register holding a byte and with
a single-bit mask `2 ^ k` leaves the register equal to `r OR m` for every value
other than `LOW` and equal to `r AND NOT m` for `LOW`; the addressed bit is set,
respectively cleared, every other bit of the register is unchanged, and so is
every other register. -/
theorem C1_fio_digitalWrite_sets_or_clears_one_bit (s : Machine) (reg k value : Nat)
    (hr : s.mem reg < 256) (hk : k < 8) :
    (value ≠ LOW → (fio_digitalWrite s reg (2 ^ k) value).mem reg = s.mem reg ||| 2 ^ k) ∧
    (value = LOW →
      (fio_digitalWrite s reg (2 ^ k) value).mem reg = s.mem reg &&& (255 ^^^ 2 ^ k)) ∧
    ((fio_digitalWrite s reg (2 ^ k) value).mem reg).testBit k = decide (value ≠ LOW) ∧
    (∀ j, j ≠ k →
      ((fio_digitalWrite s reg (2 ^ k) value).mem reg).testBit j = (s.mem reg).testBit j) ∧
    (∀ a, a ≠ reg → (fio_digitalWrite s reg (2 ^ k) value).mem a = s.mem a) := by
  have hm : 2 ^ k < 256 := by
    calc 2 ^ k < 2 ^ 8 := Nat.pow_lt_pow_right (by norm_num) hk
      _ = 256 := by norm_num
  have h255 : ∀ j < 8, Nat.testBit 255 j = true := by decide
  have hor : (s.mem reg ||| 2 ^ k) % 256 = s.mem reg ||| 2 ^ k :=
    Nat.mod_eq_of_lt (Nat.or_lt_two_pow (n := 8) hr hm)
  have hand : (s.mem reg &&& (2 ^ k ^^^ 0xFFFF)) % 256 = s.mem reg &&& (255 ^^^ 2 ^ k) := by
    apply byte_eq_of_testBit (Nat.mod_lt _ (by norm_num))
      (lt_of_le_of_lt Nat.and_le_left hr)
    intro j hj
    rw [testBit_clear _ _ _ hj]
    simp [h255 j hj]
  by_cases hv : value = LOW
  · have hw : (fio_digitalWrite s reg (2 ^ k) value).mem reg
        = s.mem reg &&& (255 ^^^ 2 ^ k) := by
      simp [fio_digitalWrite, hv, fio_digitalWrite_LOW, mem_store_same, hand]
    refine ⟨fun h => absurd hv h, fun _ => hw, ?_, ?_, ?_⟩
    · rw [hw]; simp [hv, Nat.testBit_two_pow, h255 k hk]
    · intro j hjk
      rw [hw]
      by_cases hj : j < 8
      · simp [h255 j hj, Nat.testBit_two_pow, Ne.symm hjk]
      · simp [testBit_of_lt_256 hr (by omega : 8 ≤ j)]
    · intro a ha
      simp [fio_digitalWrite, hv, fio_digitalWrite_LOW, mem_store_other _ _ _ _ ha]
  · have hw : (fio_digitalWrite s reg (2 ^ k) value).mem reg = s.mem reg ||| 2 ^ k := by
      simp [fio_digitalWrite, hv, fio_digitalWrite_HIGH, mem_store_same, hor]
    refine ⟨fun _ => hw, fun h => absurd h hv, ?_, ?_, ?_⟩
    · rw [hw]; simp [hv, Nat.testBit_two_pow]
    · intro j hjk
      rw [hw]
      simp [Nat.testBit_two_pow, Ne.symm hjk]
    · intro a ha
      simp [fio_digitalWrite, hv, fio_digitalWrite_HIGH, mem_store_other _ _ _ _ ha]

/-- Witness for C1: writing `HIGH` to bit 3 of the demo register `0xA5`. -/
theorem C1_fio_digitalWrite_witness :
    (fio_digitalWrite demoMachine 0x25 (2 ^ 3) HIGH).mem 0x25 = 0xAD ∧
    (fio_digitalWrite demoMachine 0x25 (2 ^ 3) LOW).mem 0x25 = 0xA5 ∧
    (fio_digitalWrite demoMachine 0x25 (2 ^ 0) LOW).mem 0x25 = 0xA4 := by
  have hH := C1_fio_digitalWrite_sets_or_clears_one_bit demoMachine 0x25 3 HIGH
    (by decide) (by decide)
  have hL := C1_fio_digitalWrite_sets_or_clears_one_bit demoMachine 0x25 3 LOW
    (by decide) (by decide)
  have hL0 := C1_fio_digitalWrite_sets_or_clears_one_bit demoMachine 0x25 0 LOW
    (by decide) (by decide)
  refine ⟨?_, ?_, ?_⟩
  · rw [hH.1 (by decide)]; decide
  · rw [hL.2.1 rfl]; decide
  · rw [hL0.2.1 rfl]; decide


/-! ## Levels of lines after the primitives -/

theorem level_after_LOW (s : Machine) (reg k reg' k' : Nat) (hk' : k' < 8) :
    ((fio_digitalWrite_LOW s reg (2 ^ k)).mem reg').testBit k'
      = if reg' = reg ∧ k' = k then false else (s.mem reg').testBit k' := by
  by_cases hr : reg' = reg
  · subst hr
    simp only [fio_digitalWrite_LOW, mem_store_same, testBit_clear _ _ _ hk', Nat.testBit_two_pow]
    by_cases hkk : k' = k
    · simp [hkk]
    · simp [hkk, Ne.symm hkk]
  · simp [fio_digitalWrite_LOW, mem_store_other _ _ _ _ hr, hr]

theorem level_after_HIGH (s : Machine) (reg k reg' k' : Nat) (hk' : k' < 8) :
    ((fio_digitalWrite_HIGH s reg (2 ^ k)).mem reg').testBit k'
      = if reg' = reg ∧ k' = k then true else (s.mem reg').testBit k' := by
  by_cases hr : reg' = reg
  · subst hr
    simp only [fio_digitalWrite_HIGH, mem_store_same, testBit_set _ _ _ hk', Nat.testBit_two_pow]
    by_cases hkk : k' = k
    · simp [hkk]
    · simp [hkk, Ne.symm hkk]
  · simp [fio_digitalWrite_HIGH, mem_store_other _ _ _ _ hr, hr]

theorem level_after_SWITCH (s : Machine) (reg k reg' k' : Nat) (hk' : k' < 8) :
    ((fio_digitalWrite_SWITCH s reg (2 ^ k)).mem reg').testBit k'
      = if reg' = reg ∧ k' = k then !(s.mem reg').testBit k' else (s.mem reg').testBit k' := by
  by_cases hr : reg' = reg
  · subst hr
    simp only [fio_digitalWrite_SWITCH, mem_store_same, testBit_toggle _ _ _ hk',
      Nat.testBit_two_pow]
    by_cases hkk : k' = k
    · simp [hkk]
    · simp [hkk, Ne.symm hkk]
  · simp [fio_digitalWrite_SWITCH, mem_store_other _ _ _ _ hr, hr]

theorem cNot_cNot_and_shift (value i : Nat) :
    cNot (cNot (value &&& (1 <<< i))) = if value.testBit i then 1 else 0 := by
  rw [Nat.one_shiftLeft]
  by_cases h : value.testBit i = true
  · have := (and_two_pow_ne_zero value i).2 h
    simp [cNot, h, this]
  · have h0 : value &&& 2 ^ i = 0 := by
      by_contra hne
      exact h ((and_two_pow_ne_zero value i).1 hne)
    simp [cNot, h, h0]

theorem bitOf_eq (value i : Nat) : bitOf value i = if value.testBit i then 1 else 0 := by
  unfold bitOf
  rw [Nat.testBit_to_div_mod, Nat.shiftRight_eq_div_pow]
  rcases Nat.mod_two_eq_zero_or_one (value / 2 ^ i) with h | h <;> simp [h]


/-! ## Shape of the trace of the primitives -/

theorem shape_LOW (s : Machine) (reg bit : Nat) :
    (fio_digitalWrite_LOW s reg bit).trace
        = s.trace ++ [⟨Op.store reg ((fio_digitalWrite_LOW s reg bit).mem reg), s.sreg⟩] ∧
    (fio_digitalWrite_LOW s reg bit).mem
        = Function.update s.mem reg ((fio_digitalWrite_LOW s reg bit).mem reg) ∧
    (fio_digitalWrite_LOW s reg bit).sreg = s.sreg := by
  simp [fio_digitalWrite_LOW, Machine.store]

theorem shape_HIGH (s : Machine) (reg bit : Nat) :
    (fio_digitalWrite_HIGH s reg bit).trace
        = s.trace ++ [⟨Op.store reg ((fio_digitalWrite_HIGH s reg bit).mem reg), s.sreg⟩] ∧
    (fio_digitalWrite_HIGH s reg bit).mem
        = Function.update s.mem reg ((fio_digitalWrite_HIGH s reg bit).mem reg) ∧
    (fio_digitalWrite_HIGH s reg bit).sreg = s.sreg := by
  simp [fio_digitalWrite_HIGH, Machine.store]

theorem shape_SWITCH (s : Machine) (reg bit : Nat) :
    (fio_digitalWrite_SWITCH s reg bit).trace
        = s.trace ++ [⟨Op.store reg ((fio_digitalWrite_SWITCH s reg bit).mem reg), s.sreg⟩] ∧
    (fio_digitalWrite_SWITCH s reg bit).mem
        = Function.update s.mem reg ((fio_digitalWrite_SWITCH s reg bit).mem reg) ∧
    (fio_digitalWrite_SWITCH s reg bit).sreg = s.sreg := by
  simp [fio_digitalWrite_SWITCH, Machine.store]

theorem shape_write (s : Machine) (reg bit value : Nat) :
    (fio_digitalWrite s reg bit value).trace
        = s.trace ++ [⟨Op.store reg ((fio_digitalWrite s reg bit value).mem reg), s.sreg⟩] ∧
    (fio_digitalWrite s reg bit value).mem
        = Function.update s.mem reg ((fio_digitalWrite s reg bit value).mem reg) ∧
    (fio_digitalWrite s reg bit value).sreg = s.sreg := by
  unfold fio_digitalWrite
  split
  · exact shape_LOW s reg bit
  · exact shape_HIGH s reg bit

theorem level_after_write (s : Machine) (reg k value reg' k' : Nat) (hk' : k' < 8) :
    ((fio_digitalWrite s reg (2 ^ k) value).mem reg').testBit k'
      = if reg' = reg ∧ k' = k then decide (value ≠ LOW) else (s.mem reg').testBit k' := by
  unfold fio_digitalWrite
  split
  · rename_i h
    rw [level_after_LOW _ _ _ _ _ hk']; simp [h]
  · rename_i h
    rw [level_after_HIGH _ _ _ _ _ hk']; simp [h]

/-! ## The recorder on concatenated traces -/

theorem replay_append (mem : Nat → Nat) (t1 t2 : List Step) :
    replay mem (t1 ++ t2) = replay (replay mem t1) t2 := by
  simp [replay, List.foldl_append]

theorem clockEdges_append (dR dB cR cB : Nat) (mem : Nat → Nat) (t1 t2 : List Step) :
    clockEdges dR dB cR cB mem (t1 ++ t2)
      = clockEdges dR dB cR cB mem t1 ++ clockEdges dR dB cR cB (replay mem t1) t2 := by
  induction t1 generalizing mem with
  | nil => rfl
  | cons e es ih =>
    simp only [List.cons_append, clockEdges, replay, List.foldl_cons]
    split
    · simp [ih, replay]
    · simp [ih, replay]

theorem clockEdges_store (dR a cR c : Nat) (mem : Nat → Nat) (reg val sr : Nat) :
    clockEdges dR (2 ^ a) cR (2 ^ c) mem [⟨Op.store reg val, sr⟩]
      = if (mem cR).testBit c = ((Function.update mem reg val) cR).testBit c then []
        else [(if ((Function.update mem reg val) cR).testBit c then HIGH else LOW,
               if ((Function.update mem reg val) dR).testBit a then HIGH else LOW)] := by
  simp only [clockEdges, applyStep, fio_digitalRead_two_pow]
  cases (mem cR).testBit c <;> cases ((Function.update mem reg val) cR).testBit c <;>
    simp [HIGH, LOW]


theorem replay_store (mem : Nat → Nat) (reg val sr : Nat) :
    replay mem [⟨Op.store reg val, sr⟩] = Function.update mem reg val := rfl

/-! ## The clocked shift-out -/

theorem fio_shiftOut_body_edges (dR a cR c value i : Nat) (s : Machine)
    (ha : a < 8) (hc : c < 8) (hd : dR ≠ cR ∨ a ≠ c)
    (hlow : (s.mem cR).testBit c = false) :
    ∃ t, (fio_shiftOut_body dR (2 ^ a) cR (2 ^ c) value s i).trace = s.trace ++ t ∧
      (fio_shiftOut_body dR (2 ^ a) cR (2 ^ c) value s i).mem = replay s.mem t ∧
      clockEdges dR (2 ^ a) cR (2 ^ c) s.mem t = [(HIGH, bitOf value i), (LOW, bitOf value i)] ∧
      ((fio_shiftOut_body dR (2 ^ a) cR (2 ^ c) value s i).mem cR).testBit c = false ∧
      ((fio_shiftOut_body dR (2 ^ a) cR (2 ^ c) value s i).mem dR).testBit a
        = value.testBit i := by
  have hcd : ¬ (cR = dR ∧ c = a) := by
    rintro ⟨h1, h2⟩
    rcases hd with h | h
    · exact h h1.symm
    · exact h h2.symm
  have hdc : ¬ (dR = cR ∧ a = c) := by
    rintro ⟨h1, h2⟩
    exact hcd ⟨h1.symm, h2.symm⟩
  have key : fio_shiftOut_body dR (2 ^ a) cR (2 ^ c) value s i
      = fio_digitalWrite_SWITCH (fio_digitalWrite_HIGH
          (fio_digitalWrite s dR (2 ^ a) (cNot (cNot (value &&& (1 <<< i))))) cR (2 ^ c))
          cR (2 ^ c) := rfl
  rw [key]
  generalize hs1 : fio_digitalWrite s dR (2 ^ a) (cNot (cNot (value &&& (1 <<< i)))) = s1
  generalize hs2 : fio_digitalWrite_HIGH s1 cR (2 ^ c) = s2
  generalize hs3 : fio_digitalWrite_SWITCH s2 cR (2 ^ c) = s3
  have sh1 := shape_write s dR (2 ^ a) (cNot (cNot (value &&& (1 <<< i))))
  have sh2 := shape_HIGH s1 cR (2 ^ c)
  have sh3 := shape_SWITCH s2 cR (2 ^ c)
  rw [hs1] at sh1; rw [hs2] at sh2; rw [hs3] at sh3
  have m1 : Function.update s.mem dR (s1.mem dR) = s1.mem := sh1.2.1.symm
  have m2 : Function.update s1.mem cR (s2.mem cR) = s2.mem := sh2.2.1.symm
  have m3 : Function.update s2.mem cR (s3.mem cR) = s3.mem := sh3.2.1.symm
  have c1 : (s1.mem cR).testBit c = false := by
    rw [← hs1, level_after_write _ _ _ _ _ _ hc]; simp [hcd, hlow]
  have d1 : (s1.mem dR).testBit a = value.testBit i := by
    rw [← hs1, level_after_write _ _ _ _ _ _ ha, cNot_cNot_and_shift]
    by_cases h : value.testBit i = true <;> simp [h, LOW]
  have c2 : (s2.mem cR).testBit c = true := by
    rw [← hs2, level_after_HIGH _ _ _ _ _ hc]; simp
  have d2 : (s2.mem dR).testBit a = value.testBit i := by
    rw [← hs2, level_after_HIGH _ _ _ _ _ ha]; simp [hdc, d1]
  have c3 : (s3.mem cR).testBit c = false := by
    rw [← hs3, level_after_SWITCH _ _ _ _ _ hc]; simp [c2]
  have d3 : (s3.mem dR).testBit a = value.testBit i := by
    rw [← hs3, level_after_SWITCH _ _ _ _ _ ha]; simp [hdc, d2]
  refine ⟨[⟨Op.store dR (s1.mem dR), s.sreg⟩] ++ ([⟨Op.store cR (s2.mem cR), s1.sreg⟩]
      ++ [⟨Op.store cR (s3.mem cR), s2.sreg⟩]), ?_, ?_, ?_, c3, d3⟩
  · rw [sh3.1, sh2.1, sh1.1]; simp
  · rw [replay_append, replay_append]
    simp only [replay_store, m1, m2, m3]
  · rw [clockEdges_append, clockEdges_append, clockEdges_store, clockEdges_store,
      clockEdges_store]
    simp only [replay_store, m1, m2, m3]
    simp [hlow, c1, c2, c3, d2, d3, bitOf_eq, HIGH, LOW]


theorem emitted_eq {s s' : Machine} {t : List Step} (h : s'.trace = s.trace ++ t) :
    emitted s s' = t := by
  simp [emitted, h]

theorem fio_shiftOut_loop_edges (dR a cR c value : Nat)
    (ha : a < 8) (hc : c < 8) (hd : dR ≠ cR ∨ a ≠ c) (n : Nat) :
    ∀ s : Machine, (s.mem cR).testBit c = false →
    ∃ t, (fio_shiftOut_loop dR (2 ^ a) cR (2 ^ c) value n s).trace = s.trace ++ t ∧
      (fio_shiftOut_loop dR (2 ^ a) cR (2 ^ c) value n s).mem = replay s.mem t ∧
      clockEdges dR (2 ^ a) cR (2 ^ c) s.mem t = edgesOf (msbFirst value n) ∧
      ((fio_shiftOut_loop dR (2 ^ a) cR (2 ^ c) value n s).mem cR).testBit c = false := by
  induction n with
  | zero =>
    intro s hlow
    exact ⟨[], by simp [fio_shiftOut_loop], rfl, rfl, hlow⟩
  | succ i ih =>
    intro s hlow
    obtain ⟨t1, ht1, hm1, he1, hc1, _⟩ :=
      fio_shiftOut_body_edges dR a cR c value i s ha hc hd hlow
    obtain ⟨t2, ht2, hm2, he2, hc2⟩ :=
      ih (fio_shiftOut_body dR (2 ^ a) cR (2 ^ c) value s i) hc1
    refine ⟨t1 ++ t2, ?_, ?_, ?_, hc2⟩
    · show (fio_shiftOut_loop dR (2 ^ a) cR (2 ^ c) value i _).trace = _
      rw [ht2, ht1, List.append_assoc]
    · show (fio_shiftOut_loop dR (2 ^ a) cR (2 ^ c) value i _).mem = _
      rw [hm2, hm1, replay_append]
    · rw [clockEdges_append, he1, ← hm1, he2]
      rfl

theorem rising_edgesOf (bs : List Nat) :
    ((edgesOf bs).filter (fun p => p.1 = HIGH)).map Prod.snd = bs := by
  induction bs with
  | nil => rfl
  | cons b bs ih =>
    simp [edgesOf, HIGH, LOW] at ih ⊢
    exact ih

/-- C2: from any state in which the clock line is LOW and the data and clock
lines are distinct bits, `fio_shiftOut` produces exactly 8 rising clock edges,
and the data levels sampled at them are bits 7, 6, ..., 0 of the value, in this
order; for the value `0b10110010` they are `1,0,1,1,0,0,1,0`. -/
theorem C2_fio_shiftOut_msb_first (s : Machine) (dR a cR c value : Nat)
    (ha : a < 8) (hc : c < 8) (hd : dR ≠ cR ∨ a ≠ c)
    (hlow : fio_digitalRead (s.mem cR) (2 ^ c) = LOW) :
    risingSamples dR (2 ^ a) cR (2 ^ c) s.mem
        (emitted s (fio_shiftOut s dR (2 ^ a) cR (2 ^ c) value))
      = [bitOf value 7, bitOf value 6, bitOf value 5, bitOf value 4,
         bitOf value 3, bitOf value 2, bitOf value 1, bitOf value 0] ∧
    (risingSamples dR (2 ^ a) cR (2 ^ c) s.mem
        (emitted s (fio_shiftOut s dR (2 ^ a) cR (2 ^ c) value))).length = 8 ∧
    (value = 0b10110010 →
      risingSamples dR (2 ^ a) cR (2 ^ c) s.mem
          (emitted s (fio_shiftOut s dR (2 ^ a) cR (2 ^ c) value))
        = [1, 0, 1, 1, 0, 0, 1, 0]) := by
  have hlow' : (s.mem cR).testBit c = false := by
    rw [fio_digitalRead_two_pow] at hlow
    by_cases h : (s.mem cR).testBit c = true
    · simp [h, HIGH, LOW] at hlow
    · simpa using h
  obtain ⟨t, ht, _, he, _⟩ := fio_shiftOut_loop_edges dR a cR c value ha hc hd 8 s hlow'
  have hem : emitted s (fio_shiftOut s dR (2 ^ a) cR (2 ^ c) value) = t := emitted_eq ht
  have hsamples : risingSamples dR (2 ^ a) cR (2 ^ c) s.mem
      (emitted s (fio_shiftOut s dR (2 ^ a) cR (2 ^ c) value)) = msbFirst value 8 := by
    rw [hem, risingSamples, he, rising_edgesOf]
  refine ⟨hsamples, ?_, ?_⟩
  · rw [hsamples]; rfl
  · intro hv
    rw [hsamples, hv]
    decide

/-- Witness for C2: shifting `0b10110010` out of the demo board, data on bit 0
and clock on bit 1 of the same port register. -/
theorem C2_fio_shiftOut_witness :
    risingSamples 0x25 (2 ^ 0) 0x25 (2 ^ 1) demoMachine.mem
        (emitted demoMachine (fio_shiftOut demoMachine 0x25 (2 ^ 0) 0x25 (2 ^ 1) 0b10110010))
      = [1, 0, 1, 1, 0, 0, 1, 0] :=
  (C2_fio_shiftOut_msb_first demoMachine 0x25 0 0x25 1 0b10110010 (by decide) (by decide)
    (Or.inr (by decide)) (by decide)).2.2 rfl


/-! ## The Shift1 line -/

theorem lineView_append (reg bit : Nat) (t1 t2 : List Step) :
    lineView reg bit (t1 ++ t2) = lineView reg bit t1 ++ lineView reg bit t2 := by
  induction t1 with
  | nil => rfl
  | cons e es ih =>
    obtain ⟨op, sr⟩ := e
    cases op <;> simp only [List.cons_append, lineView] <;> (try split) <;> simp [ih]

theorem lineView_LOW (s : Machine) (reg k sr : Nat) (hk : k < 8) :
    lineView reg (2 ^ k) [⟨Op.store reg ((fio_digitalWrite_LOW s reg (2 ^ k)).mem reg), sr⟩]
      = [LineEvent.level false] := by
  have h := level_after_LOW s reg k reg k hk
  simp only [and_self, if_true] at h
  simp [lineView, fio_digitalRead_two_pow, h, HIGH, LOW]

theorem lineView_HIGH (s : Machine) (reg k sr : Nat) (hk : k < 8) :
    lineView reg (2 ^ k) [⟨Op.store reg ((fio_digitalWrite_HIGH s reg (2 ^ k)).mem reg), sr⟩]
      = [LineEvent.level true] := by
  have h := level_after_HIGH s reg k reg k hk
  simp only [and_self, if_true] at h
  simp [lineView, fio_digitalRead_two_pow, h, HIGH, LOW]

theorem shape_delay (s : Machine) (us : Nat) :
    (delayMicroseconds s us).trace = s.trace ++ [⟨Op.delay us, s.sreg⟩] ∧
    (delayMicroseconds s us).mem = s.mem ∧
    (delayMicroseconds s us).sreg = s.sreg := by
  simp [delayMicroseconds]

theorem fio_shiftOut1_body_one (reg bit value i : Nat) (s : Machine)
    (h : value.testBit i = true) :
    fio_shiftOut1_body reg bit value s i
      = delayMicroseconds (fio_digitalWrite_HIGH (fio_digitalWrite_LOW s reg bit) reg bit) 14 := by
  unfold fio_shiftOut1_body
  rw [cNot_cNot_and_shift]
  simp [h, LOW]

theorem fio_shiftOut1_body_zero (reg bit value i : Nat) (s : Machine)
    (h : value.testBit i = false) :
    fio_shiftOut1_body reg bit value s i
      = delayMicroseconds (fio_digitalWrite_HIGH
          (delayMicroseconds (fio_digitalWrite_LOW s reg bit) 14) reg bit) 29 := by
  unfold fio_shiftOut1_body
  rw [cNot_cNot_and_shift]
  simp [h, LOW]

/-- What one loop iteration of `fio_shiftOut1` adds to the trace: how it drives
the Shift1 line when the mask is a single bit, and the facts the steps of the
timing-critical section share (each ran with the status register the iteration
was entered with, and each is a pin write or a delay). -/
theorem fio_shiftOut1_body_line (reg bit value i : Nat) (s : Machine) :
    ∃ t, (fio_shiftOut1_body reg bit value s i).trace = s.trace ++ t ∧
      (∀ k, k < 8 → bit = 2 ^ k → lineView reg bit t
        = (if value.testBit i then
            [LineEvent.level false, LineEvent.level true, LineEvent.hold 14]
          else
            [LineEvent.level false, LineEvent.hold 14, LineEvent.level true,
              LineEvent.hold 29])) ∧
      (∀ e ∈ t, e.sreg = s.sreg ∧ e.op.isWriteOrDelay = true) ∧
      (fio_shiftOut1_body reg bit value s i).sreg = s.sreg := by
  by_cases hb : value.testBit i = true
  · rw [fio_shiftOut1_body_one reg bit value i s hb]
    simp only [hb, if_true]
    generalize hs1 : fio_digitalWrite_LOW s reg bit = s1
    generalize hs2 : fio_digitalWrite_HIGH s1 reg bit = s2
    have sh1 := shape_LOW s reg bit
    have sh2 := shape_HIGH s1 reg bit
    have sh3 := shape_delay s2 14
    rw [hs1] at sh1; rw [hs2] at sh2
    refine ⟨[⟨Op.store reg (s1.mem reg), s.sreg⟩] ++ ([⟨Op.store reg (s2.mem reg), s1.sreg⟩]
      ++ [⟨Op.delay 14, s2.sreg⟩]), ?_, ?_, ?_, ?_⟩
    · rw [sh3.1, sh2.1, sh1.1]; simp
    · intro k hk hbit
      subst hbit
      have l1 := lineView_LOW s reg k s.sreg hk
      have l2 := lineView_HIGH s1 reg k s1.sreg hk
      rw [hs1] at l1; rw [hs2] at l2
      rw [lineView_append, lineView_append, l1, l2]; rfl
    · intro e he
      simp only [List.mem_append, List.mem_singleton] at he
      rcases he with rfl | rfl | rfl <;> simp [Op.isWriteOrDelay, sh1.2.2, sh2.2.2]
    · rw [sh3.2.2, sh2.2.2, sh1.2.2]
  · rw [fio_shiftOut1_body_zero reg bit value i s (by simpa using hb)]
    simp only [hb]
    generalize hs1 : fio_digitalWrite_LOW s reg bit = s1
    generalize hs2 : delayMicroseconds s1 14 = s2
    generalize hs3 : fio_digitalWrite_HIGH s2 reg bit = s3
    have sh1 := shape_LOW s reg bit
    have sh2 := shape_delay s1 14
    have sh3 := shape_HIGH s2 reg bit
    have sh4 := shape_delay s3 29
    rw [hs1] at sh1; rw [hs2] at sh2; rw [hs3] at sh3
    refine ⟨[⟨Op.store reg (s1.mem reg), s.sreg⟩] ++ ([⟨Op.delay 14, s1.sreg⟩]
      ++ ([⟨Op.store reg (s3.mem reg), s2.sreg⟩] ++ [⟨Op.delay 29, s3.sreg⟩])), ?_, ?_, ?_, ?_⟩
    · rw [sh4.1, sh3.1, sh2.1, sh1.1]; simp
    · intro k hk hbit
      subst hbit
      have l1 := lineView_LOW s reg k s.sreg hk
      have l3 := lineView_HIGH s2 reg k s2.sreg hk
      rw [hs1] at l1; rw [hs3] at l3
      rw [lineView_append, lineView_append, lineView_append, l1, l3]; rfl
    · intro e he
      simp only [List.mem_append, List.mem_singleton] at he
      rcases he with rfl | rfl | rfl | rfl <;>
        simp [Op.isWriteOrDelay, sh1.2.2, sh2.2.2, sh3.2.2]
    · rw [sh4.2.2, sh3.2.2, sh2.2.2, sh1.2.2]

theorem fio_shiftOut1_loop_line (reg bit value : Nat) (i : Nat) :
    ∀ s : Machine,
    ∃ t, (fio_shiftOut1_loop reg bit value i s).trace = s.trace ++ t ∧
      (∀ k, k < 8 → bit = 2 ^ k → lineView reg bit t = shift1LoopLine value i) ∧
      (∀ e ∈ t, e.sreg = s.sreg ∧ e.op.isWriteOrDelay = true) ∧
      (fio_shiftOut1_loop reg bit value i s).sreg = s.sreg := by
  induction i with
  | zero =>
    intro s
    exact ⟨[], by simp [fio_shiftOut1_loop], fun _ _ _ => rfl, by simp, rfl⟩
  | succ i ih =>
    intro s
    obtain ⟨t1, ht1, hl1, he1, hs1⟩ := fio_shiftOut1_body_line reg bit value (i + 1) s
    obtain ⟨t2, ht2, hl2, he2, hs2⟩ := ih (fio_shiftOut1_body reg bit value s (i + 1))
    refine ⟨t1 ++ t2, ?_, ?_, ?_, ?_⟩
    · show (fio_shiftOut1_loop reg bit value i _).trace = _
      rw [ht2, ht1, List.append_assoc]
    · intro k hk hbit
      rw [lineView_append, hl1 k hk hbit, hl2 k hk hbit]; rfl
    · intro e he
      rcases List.mem_append.1 he with h | h
      · exact he1 e h
      · have := he2 e h
        rw [hs1] at this
        exact this
    · show (fio_shiftOut1_loop reg bit value i _).sreg = _
      rw [hs2, hs1]

theorem shape_cli (s : Machine) :
    (cli s).trace = s.trace ++ [⟨Op.cli, s.sreg &&& 0x7F⟩] ∧
    (cli s).mem = s.mem ∧ (cli s).sreg = s.sreg &&& 0x7F := by
  simp [cli]

theorem shape_setSREG (s : Machine) (val : Nat) :
    (setSREG s val).trace = s.trace ++ [⟨Op.setSREG val, val⟩] ∧
    (setSREG s val).mem = s.mem ∧ (setSREG s val).sreg = val := by
  simp [setSREG]

/-- The trace of one call of `fio_shiftOut1`: a `cli`, then pin writes and
delays that all run with the status register `cli` left (and drive the line as
`shift1Line` says when the mask is a single bit), then the assignment that
restores the status register. -/
theorem fio_shiftOut1_trace (s : Machine) (reg bit value : Nat) :
    ∃ t, (fio_shiftOut1 s reg bit value).trace
        = s.trace ++ ([⟨Op.cli, s.sreg &&& 0x7F⟩] ++ (t ++ [⟨Op.setSREG s.sreg, s.sreg⟩])) ∧
      (∀ k, k < 8 → bit = 2 ^ k → lineView reg bit t = shift1Line value) ∧
      (∀ e ∈ t, e.sreg = s.sreg &&& 0x7F ∧ e.op.isWriteOrDelay = true) ∧
      (fio_shiftOut1 s reg bit value).sreg = s.sreg := by
  have key : fio_shiftOut1 s reg bit value
      = setSREG (delayMicroseconds (fio_digitalWrite_HIGH (delayMicroseconds
          (fio_digitalWrite_LOW (fio_shiftOut1_loop reg bit value 7 (cli s)) reg bit)
          199) reg bit) 299) s.sreg := rfl
  rw [key]
  obtain ⟨t, ht, hl, he, hs⟩ := fio_shiftOut1_loop_line reg bit value 7 (cli s)
  generalize hs2 : fio_shiftOut1_loop reg bit value 7 (cli s) = s2 at ht hs
  generalize hs3 : fio_digitalWrite_LOW s2 reg bit = s3
  generalize hs4 : delayMicroseconds s3 199 = s4
  generalize hs5 : fio_digitalWrite_HIGH s4 reg bit = s5
  generalize hs6 : delayMicroseconds s5 299 = s6
  have sh1 := shape_cli s
  have sh3 := shape_LOW s2 reg bit
  have sh4 := shape_delay s3 199
  have sh5 := shape_HIGH s4 reg bit
  have sh6 := shape_delay s5 299
  have sh7 := shape_setSREG s6 s.sreg
  rw [hs3] at sh3; rw [hs4] at sh4; rw [hs5] at sh5; rw [hs6] at sh6
  rw [sh1.2.2] at hs he
  refine ⟨t ++ ([⟨Op.store reg (s3.mem reg), s2.sreg⟩] ++ ([⟨Op.delay 199, s3.sreg⟩]
      ++ ([⟨Op.store reg (s5.mem reg), s4.sreg⟩] ++ [⟨Op.delay 299, s5.sreg⟩]))),
    ?_, ?_, ?_, sh7.2.2⟩
  · rw [sh7.1, sh6.1, sh5.1, sh4.1, sh3.1, ht, sh1.1]; simp
  · intro k hk hbit
    have hl' := hl k hk hbit
    subst hbit
    have l3 := lineView_LOW s2 reg k s2.sreg hk
    have l5 := lineView_HIGH s4 reg k s4.sreg hk
    rw [hs3] at l3; rw [hs5] at l5
    rw [lineView_append, lineView_append, lineView_append, lineView_append, l3, l5, hl']; rfl
  · intro e h
    rcases List.mem_append.1 h with h | h
    · exact he e h
    · simp only [List.mem_append, List.mem_singleton] at h
      rcases h with rfl | rfl | rfl | rfl <;>
        simp [Op.isWriteOrDelay, hs, sh3.2.2, sh4.2.2, sh5.2.2]

theorem lineView_fio_shiftOut1 (s : Machine) (reg k value : Nat) (hk : k < 8) :
    lineView reg (2 ^ k) (emitted s (fio_shiftOut1 s reg (2 ^ k) value)) = shift1Line value := by
  obtain ⟨t, ht, hl, _, _⟩ := fio_shiftOut1_trace s reg (2 ^ k) value
  rw [emitted_eq ht, lineView_append, lineView_append, hl k hk rfl]
  simp [lineView]

set_option maxRecDepth 100000 in
theorem pulsesFrom_shift1Line : ∀ value < 256,
    pulsesFrom PulsePhase.idle (shift1Line value)
      = [dataPulse (bitOf value 7), dataPulse (bitOf value 6), dataPulse (bitOf value 5),
         dataPulse (bitOf value 4), dataPulse (bitOf value 3), dataPulse (bitOf value 2),
         dataPulse (bitOf value 1), (199, 299)] ∧
    pulsesFrom (PulsePhase.low 0) (shift1Line value)
      = [dataPulse (bitOf value 7), dataPulse (bitOf value 6), dataPulse (bitOf value 5),
         dataPulse (bitOf value 4), dataPulse (bitOf value 3), dataPulse (bitOf value 2),
         dataPulse (bitOf value 1), (199, 299)] := by
  decide

/-- The pulses of one call of `fio_shiftOut1` on its line: seven data pulses,
for bits 7 down to 1 of the value, and the framing pulse. -/
theorem pulses_fio_shiftOut1 (s : Machine) (reg k value : Nat) (hk : k < 8)
    (hv : value < 256) :
    pulses reg (2 ^ k) (s.mem reg) (emitted s (fio_shiftOut1 s reg (2 ^ k) value))
      = [dataPulse (bitOf value 7), dataPulse (bitOf value 6), dataPulse (bitOf value 5),
         dataPulse (bitOf value 4), dataPulse (bitOf value 3), dataPulse (bitOf value 2),
         dataPulse (bitOf value 1), (199, 299)] := by
  unfold pulses
  rw [lineView_fio_shiftOut1 s reg k value hk]
  split
  · exact (pulsesFrom_shift1Line value hv).1
  · exact (pulsesFrom_shift1Line value hv).2

theorem classify_dataPulse (t value i : Nat) (ht0 : 0 < t) (ht : t ≤ 14) :
    classify t (dataPulse (bitOf value i)) = bitOf value i := by
  unfold bitOf
  rcases Nat.mod_two_eq_zero_or_one (value >>> i) with h | h
  · rw [h]; simp [classify, dataPulse, ht]
  · rw [h]; simp [classify, dataPulse]; omega

/-- C3: decoding the pulse trace of `fio_shiftOut1` recovers the 7 most
significant bits of the byte: the trace has exactly 7 data pulses followed by
the framing pulse, and classifying the k-th data pulse as 0 when its LOW hold is
at least `t` and as 1 otherwise gives bit `7 - k` of the value, for every
threshold `0 < t ≤ 14` microseconds. -/
theorem C3_fio_shiftOut1_decodes_to_top_seven_bits (s : Machine) (reg k value t : Nat)
    (hk : k < 8) (hv : value < 256) (ht0 : 0 < t) (ht : t ≤ 14) :
    (pulses reg (2 ^ k) (s.mem reg)
        (emitted s (fio_shiftOut1 s reg (2 ^ k) value))).length = 7 + 1 ∧
    (pulses reg (2 ^ k) (s.mem reg)
        (emitted s (fio_shiftOut1 s reg (2 ^ k) value))).drop 7 = [(199, 299)] ∧
    ((pulses reg (2 ^ k) (s.mem reg)
        (emitted s (fio_shiftOut1 s reg (2 ^ k) value))).take 7).map (classify t)
      = [bitOf value 7, bitOf value 6, bitOf value 5, bitOf value 4,
         bitOf value 3, bitOf value 2, bitOf value 1] := by
  rw [pulses_fio_shiftOut1 s reg k value hk hv]
  refine ⟨rfl, rfl, ?_⟩
  simp [classify_dataPulse _ _ _ ht0 ht]

/-- Witness for C3: the byte `0xB3` sent on bit 0 of the demo register, decoded
with a threshold of 7 microseconds. -/
theorem C3_fio_shiftOut1_witness :
    ((pulses 0x25 (2 ^ 0) (demoMachine.mem 0x25)
        (emitted demoMachine (fio_shiftOut1 demoMachine 0x25 (2 ^ 0) 0xB3))).take 7).map
        (classify 7)
      = [1, 0, 1, 1, 0, 0, 1] :=
  (C3_fio_shiftOut1_decodes_to_top_seven_bits demoMachine 0x25 0 0xB3 7
    (by decide) (by decide) (by decide) (by decide)).2.2


/-! ## The interrupt bracket of `fio_shiftOut1` -/

theorem testBit_7_and_7F (x : Nat) : (x &&& 0x7F).testBit 7 = false := by
  rw [Nat.testBit_and]
  have : Nat.testBit 0x7F 7 = false := by decide
  simp [this]

/-- C4: for every byte and every status register on entry, `fio_shiftOut1`
performs every pin write and every delay with the global interrupt flag (bit 7
of `SREG`) cleared, leaves the status register equal to its value on entry, and
assigns the status register exactly once, as the last step of the call, right
after a section that started with `cli`. -/
theorem C4_fio_shiftOut1_interrupt_bracket (s : Machine) (reg bit value : Nat) :
    (∀ e ∈ emitted s (fio_shiftOut1 s reg bit value),
      e.op.isWriteOrDelay = true → e.sreg.testBit 7 = false) ∧
    (fio_shiftOut1 s reg bit value).sreg = s.sreg ∧
    ((emitted s (fio_shiftOut1 s reg bit value)).filter
      (fun e => e.op.isSREGWrite)).length = 1 ∧
    (emitted s (fio_shiftOut1 s reg bit value)).getLast?
      = some ⟨Op.setSREG s.sreg, s.sreg⟩ ∧
    (emitted s (fio_shiftOut1 s reg bit value)).head?
      = some ⟨Op.cli, s.sreg &&& 0x7F⟩ := by
  obtain ⟨t, ht, _, he, hs⟩ := fio_shiftOut1_trace s reg bit value
  rw [emitted_eq ht]
  refine ⟨?_, hs, ?_, ?_, ?_⟩
  · intro e hmem hwd
    simp only [List.mem_append, List.mem_singleton] at hmem
    rcases hmem with rfl | h | rfl
    · exact testBit_7_and_7F s.sreg
    · rw [(he e h).1]; exact testBit_7_and_7F s.sreg
    · simp [Op.isWriteOrDelay] at hwd
  · have hnone : t.filter (fun e => e.op.isSREGWrite) = [] := by
      rw [List.filter_eq_nil_iff]
      intro e h
      have hw := (he e h).2
      cases hop : e.op <;> simp [hop, Op.isWriteOrDelay, Op.isSREGWrite] at hw ⊢
    rw [List.filter_append, List.filter_append, hnone]
    rfl
  · rw [← List.append_assoc, List.getLast?_concat]
  · rfl


/-! ## The least significant bit is not sent -/

theorem fio_shiftOut1_body_congr (reg bit v w i : Nat) (s : Machine)
    (h : v.testBit i = w.testBit i) :
    fio_shiftOut1_body reg bit v s i = fio_shiftOut1_body reg bit w s i := by
  unfold fio_shiftOut1_body
  rw [cNot_cNot_and_shift, cNot_cNot_and_shift, h]

theorem fio_shiftOut1_loop_congr (reg bit v w : Nat) (h : v / 2 = w / 2) (i : Nat) :
    ∀ s : Machine, fio_shiftOut1_loop reg bit v i s = fio_shiftOut1_loop reg bit w i s := by
  induction i with
  | zero => intro s; rfl
  | succ i ih =>
    intro s
    have hb : v.testBit (i + 1) = w.testBit (i + 1) := by
      rw [Nat.testBit_add_one, Nat.testBit_add_one, h]
    show fio_shiftOut1_loop reg bit v i (fio_shiftOut1_body reg bit v s (i + 1))
      = fio_shiftOut1_loop reg bit w i (fio_shiftOut1_body reg bit w s (i + 1))
    rw [fio_shiftOut1_body_congr reg bit v w (i + 1) s hb, ih]

/-- C5: the least significant bit of the value is never transmitted by
`fio_shiftOut1`.  For two bytes that agree on bits 7..1, and the same initial
state, the two calls end in the same state, trace included, so they emit the
same pin writes and delays; and decoding all eight pulses of the call gives
bits 7..1 of the value followed by a `0`: the eighth position is always LOW. -/
theorem C5_fio_shiftOut1_ignores_bit_zero (s : Machine) (reg k v w t : Nat)
    (hk : k < 8) (hv : v < 256) (h : v / 2 = w / 2)
    (ht0 : 0 < t) (ht : t ≤ 14) :
    fio_shiftOut1 s reg (2 ^ k) v = fio_shiftOut1 s reg (2 ^ k) w ∧
    emitted s (fio_shiftOut1 s reg (2 ^ k) v) = emitted s (fio_shiftOut1 s reg (2 ^ k) w) ∧
    (pulses reg (2 ^ k) (s.mem reg) (emitted s (fio_shiftOut1 s reg (2 ^ k) v))).map
        (classify t)
      = [bitOf v 7, bitOf v 6, bitOf v 5, bitOf v 4, bitOf v 3, bitOf v 2, bitOf v 1, LOW] ∧
    (pulses reg (2 ^ k) (s.mem reg) (emitted s (fio_shiftOut1 s reg (2 ^ k) w))).map
        (classify t)
      = [bitOf v 7, bitOf v 6, bitOf v 5, bitOf v 4, bitOf v 3, bitOf v 2, bitOf v 1, LOW] := by
  have heq : fio_shiftOut1 s reg (2 ^ k) v = fio_shiftOut1 s reg (2 ^ k) w := by
    unfold fio_shiftOut1
    simp only [fio_shiftOut1_loop_congr reg (2 ^ k) v w h 7]
  have hdec : (pulses reg (2 ^ k) (s.mem reg)
      (emitted s (fio_shiftOut1 s reg (2 ^ k) v))).map (classify t)
      = [bitOf v 7, bitOf v 6, bitOf v 5, bitOf v 4, bitOf v 3, bitOf v 2, bitOf v 1, LOW] := by
    rw [pulses_fio_shiftOut1 s reg k v hk hv]
    have hf : classify t (199, 299) = LOW := by
      simp [classify, LOW]; omega
    simp [classify_dataPulse _ _ _ ht0 ht, hf]
  refine ⟨heq, by rw [heq], hdec, ?_⟩
  rw [← heq]; exact hdec

/-- Witness for C5: the bytes `0xB2` and `0xB3` on bit 0 of the demo register. -/
theorem C5_fio_shiftOut1_witness :
    fio_shiftOut1 demoMachine 0x25 (2 ^ 0) 0xB2 = fio_shiftOut1 demoMachine 0x25 (2 ^ 0) 0xB3 :=
  (C5_fio_shiftOut1_ignores_bit_zero demoMachine 0x25 0 0xB2 0xB3 7
    (by decide) (by decide) (by decide) (by decide) (by decide)).1

/-! ## The zero-fill shift-out -/

theorem fio_shiftOut_zero_loop_edges (dR a cR c : Nat)
    (ha : a < 8) (hc : c < 8) (hd : dR ≠ cR ∨ a ≠ c) (n : Nat) :
    ∀ s : Machine, (s.mem cR).testBit c = false → (s.mem dR).testBit a = false →
    ∃ t, (fio_shiftOut_zero_loop cR (2 ^ c) n s).trace = s.trace ++ t ∧
      (fio_shiftOut_zero_loop cR (2 ^ c) n s).mem = replay s.mem t ∧
      clockEdges dR (2 ^ a) cR (2 ^ c) s.mem t = edgesOf (List.replicate n LOW) ∧
      ((fio_shiftOut_zero_loop cR (2 ^ c) n s).mem cR).testBit c = false ∧
      ((fio_shiftOut_zero_loop cR (2 ^ c) n s).mem dR).testBit a = false := by
  have hdc : ¬ (dR = cR ∧ a = c) := by
    rintro ⟨h1, h2⟩
    rcases hd with h | h
    · exact h h1
    · exact h h2
  induction n with
  | zero =>
    intro s hlow hdat
    exact ⟨[], by simp [fio_shiftOut_zero_loop], rfl, rfl, hlow, hdat⟩
  | succ n ih =>
    intro s hlow hdat
    generalize hs1 : fio_digitalWrite_HIGH s cR (2 ^ c) = s1
    generalize hs2 : fio_digitalWrite_SWITCH s1 cR (2 ^ c) = s2
    have sh1 := shape_HIGH s cR (2 ^ c)
    have sh2 := shape_SWITCH s1 cR (2 ^ c)
    rw [hs1] at sh1; rw [hs2] at sh2
    have m1 : Function.update s.mem cR (s1.mem cR) = s1.mem := sh1.2.1.symm
    have m2 : Function.update s1.mem cR (s2.mem cR) = s2.mem := sh2.2.1.symm
    have c1 : (s1.mem cR).testBit c = true := by
      rw [← hs1, level_after_HIGH _ _ _ _ _ hc]; simp
    have d1 : (s1.mem dR).testBit a = false := by
      rw [← hs1, level_after_HIGH _ _ _ _ _ ha]; simp [hdc, hdat]
    have c2 : (s2.mem cR).testBit c = false := by
      rw [← hs2, level_after_SWITCH _ _ _ _ _ hc]; simp [c1]
    have d2 : (s2.mem dR).testBit a = false := by
      rw [← hs2, level_after_SWITCH _ _ _ _ _ ha]; simp [hdc, d1]
    obtain ⟨t2, ht2, hm2, he2, hc2, hd2⟩ := ih s2 c2 d2
    have hstep : fio_shiftOut_zero_loop cR (2 ^ c) (n + 1) s
        = fio_shiftOut_zero_loop cR (2 ^ c) n s2 := by
      rw [← hs2, ← hs1]; rfl
    rw [hstep]
    refine ⟨[⟨Op.store cR (s1.mem cR), s.sreg⟩] ++ ([⟨Op.store cR (s2.mem cR), s1.sreg⟩]
      ++ t2), ?_, ?_, ?_, hc2, hd2⟩
    · rw [ht2, sh2.1, sh1.1]; simp
    · rw [hm2, replay_append, replay_append]
      simp only [replay_store, m1, m2]
    · rw [clockEdges_append, clockEdges_append, clockEdges_store, clockEdges_store]
      simp only [replay_store, m1, m2]
      rw [he2]
      simp [hlow, c1, c2, d1, d2, edgesOf, List.replicate, HIGH, LOW]

theorem testBit_false_of_read_LOW {r k : Nat} (h : fio_digitalRead r (2 ^ k) = LOW) :
    r.testBit k = false := by
  rw [fio_digitalRead_two_pow] at h
  by_cases hb : r.testBit k = true
  · simp [hb, HIGH, LOW] at h
  · simpa using hb

/-- C6: from any state in which the clock line is LOW and the data and clock
lines are distinct bits, the zero-fill `fio_shiftOut` produces exactly 8 rising
clock edges (and 8 falling ones), the data line is LOW at every clock edge, and
it is LOW at the end of the call. -/
theorem C6_fio_shiftOut_zero_eight_pulses_data_low (s : Machine) (dR a cR c : Nat)
    (ha : a < 8) (hc : c < 8) (hd : dR ≠ cR ∨ a ≠ c)
    (hlow : fio_digitalRead (s.mem cR) (2 ^ c) = LOW) :
    (risingSamples dR (2 ^ a) cR (2 ^ c) s.mem
        (emitted s (fio_shiftOut_zero s dR (2 ^ a) cR (2 ^ c)))).length = 8 ∧
    (clockEdges dR (2 ^ a) cR (2 ^ c) s.mem
        (emitted s (fio_shiftOut_zero s dR (2 ^ a) cR (2 ^ c)))).length = 16 ∧
    (∀ p ∈ clockEdges dR (2 ^ a) cR (2 ^ c) s.mem
        (emitted s (fio_shiftOut_zero s dR (2 ^ a) cR (2 ^ c))), p.2 = LOW) ∧
    fio_digitalRead ((fio_shiftOut_zero s dR (2 ^ a) cR (2 ^ c)).mem dR) (2 ^ a) = LOW := by
  have hlow' := testBit_false_of_read_LOW hlow
  have hcd : ¬ (cR = dR ∧ c = a) := by
    rintro ⟨h1, h2⟩
    rcases hd with h | h
    · exact h h1.symm
    · exact h h2.symm
  generalize hs1 : fio_digitalWrite_LOW s dR (2 ^ a) = s1
  have sh1 := shape_LOW s dR (2 ^ a)
  rw [hs1] at sh1
  have m1 : Function.update s.mem dR (s1.mem dR) = s1.mem := sh1.2.1.symm
  have c1 : (s1.mem cR).testBit c = false := by
    rw [← hs1, level_after_LOW _ _ _ _ _ hc]; simp [hcd, hlow']
  have d1 : (s1.mem dR).testBit a = false := by
    rw [← hs1, level_after_LOW _ _ _ _ _ ha]; simp
  obtain ⟨t, ht, _, he, _, hdat⟩ := fio_shiftOut_zero_loop_edges dR a cR c ha hc hd 8 s1 c1 d1
  have hcall : fio_shiftOut_zero s dR (2 ^ a) cR (2 ^ c)
      = fio_shiftOut_zero_loop cR (2 ^ c) 8 s1 := by
    rw [← hs1]; rfl
  have htr : (fio_shiftOut_zero s dR (2 ^ a) cR (2 ^ c)).trace
      = s.trace ++ ([⟨Op.store dR (s1.mem dR), s.sreg⟩] ++ t) := by
    rw [hcall, ht, sh1.1, List.append_assoc]
  have hedges : clockEdges dR (2 ^ a) cR (2 ^ c) s.mem
      (emitted s (fio_shiftOut_zero s dR (2 ^ a) cR (2 ^ c)))
      = edgesOf (List.replicate 8 LOW) := by
    rw [emitted_eq htr, clockEdges_append, clockEdges_store]
    simp only [replay_store, m1]
    rw [he]
    simp [hlow', c1]
  refine ⟨?_, ?_, ?_, ?_⟩
  · rw [risingSamples, hedges, rising_edgesOf]; rfl
  · rw [hedges]; rfl
  · rw [hedges]
    intro p hp
    simp [List.replicate, edgesOf] at hp
    rcases hp with h | h | h | h | h | h | h | h | h | h | h | h | h | h | h | h <;> rw [h]
  · rw [hcall, fio_digitalRead_two_pow, hdat]; rfl

/-- Witness for C6: clearing a shift register from the demo board, data on bit 0
and clock on bit 1 of the same port register. -/
theorem C6_fio_shiftOut_zero_witness :
    (risingSamples 0x25 (2 ^ 0) 0x25 (2 ^ 1) demoMachine.mem
        (emitted demoMachine (fio_shiftOut_zero demoMachine 0x25 (2 ^ 0) 0x25 (2 ^ 1)))).length
      = 8 :=
  (C6_fio_shiftOut_zero_eight_pulses_data_low demoMachine 0x25 0 0x25 1 (by decide) (by decide)
    (Or.inr (by decide)) (by decide)).1


/-! ## Timing envelope of the Shift1 pulses -/

theorem dataPulse_low_le (value i : Nat) : (dataPulse (bitOf value i)).1 ≤ 14 := by
  unfold dataPulse
  split <;> simp

/-- C7: in the trace of `fio_shiftOut1`, for every byte, the framing pulse is
distinguishable from every data pulse: the LOW hold of each of the 7 data pulses
is at most 30 microseconds, and the pulse after them, the framing pulse, is the
last one and has a LOW hold of at least 150 microseconds. -/
theorem C7_fio_shiftOut1_framing_distinguishable (s : Machine) (reg k value : Nat)
    (hk : k < 8) (hv : value < 256) :
    ((pulses reg (2 ^ k) (s.mem reg)
        (emitted s (fio_shiftOut1 s reg (2 ^ k) value))).take 7).length = 7 ∧
    (∀ p ∈ (pulses reg (2 ^ k) (s.mem reg)
        (emitted s (fio_shiftOut1 s reg (2 ^ k) value))).take 7, p.1 ≤ 30) ∧
    ((pulses reg (2 ^ k) (s.mem reg)
        (emitted s (fio_shiftOut1 s reg (2 ^ k) value))).drop 7).length = 1 ∧
    (∀ f ∈ (pulses reg (2 ^ k) (s.mem reg)
        (emitted s (fio_shiftOut1 s reg (2 ^ k) value))).drop 7, 150 ≤ f.1) := by
  rw [pulses_fio_shiftOut1 s reg k value hk hv]
  refine ⟨rfl, ?_, rfl, ?_⟩
  · intro p hp
    simp only [List.take, List.mem_cons, List.mem_nil_iff, or_false] at hp
    rcases hp with h | h | h | h | h | h | h <;> rw [h] <;>
      exact le_trans (dataPulse_low_le value _) (by norm_num)
  · intro f hf
    simp only [List.drop, List.mem_cons, List.mem_nil_iff, or_false] at hf
    rw [hf]
    norm_num

/-- Witness for C7: the byte `0xB3` sent on bit 0 of the demo register. -/
theorem C7_fio_shiftOut1_witness :
    ((pulses 0x25 (2 ^ 0) (demoMachine.mem 0x25)
        (emitted demoMachine (fio_shiftOut1 demoMachine 0x25 (2 ^ 0) 0xB3))).take 7).length = 7 ∧
    ((pulses 0x25 (2 ^ 0) (demoMachine.mem 0x25)
        (emitted demoMachine (fio_shiftOut1 demoMachine 0x25 (2 ^ 0) 0xB3))).drop 7).length = 1 :=
  ⟨(C7_fio_shiftOut1_framing_distinguishable demoMachine 0x25 0 0xB3
      (by decide) (by decide)).1,
   (C7_fio_shiftOut1_framing_distinguishable demoMachine 0x25 0 0xB3
      (by decide) (by decide)).2.2.1⟩

/-! ## The toggle primitive -/

/-- C8: on a register holding a byte and with any byte mask,
`fio_digitalWrite_SWITCH` applied twice in succession restores the register (and
the whole memory of port registers), and a single application changes exactly
the bits of the register that the mask selects and no other register. -/
theorem C8_fio_digitalWrite_SWITCH_twice_restores (s : Machine) (reg m : Nat)
    (hr : s.mem reg < 256) (hm : m < 256) :
    (fio_digitalWrite_SWITCH (fio_digitalWrite_SWITCH s reg m) reg m).mem reg = s.mem reg ∧
    (fio_digitalWrite_SWITCH (fio_digitalWrite_SWITCH s reg m) reg m).mem = s.mem ∧
    (∀ j, (((fio_digitalWrite_SWITCH s reg m).mem reg).testBit j ≠ (s.mem reg).testBit j)
      ↔ m.testBit j = true) ∧
    (∀ a, a ≠ reg → (fio_digitalWrite_SWITCH s reg m).mem a = s.mem a) := by
  have hx : (s.mem reg ^^^ m) % 256 = s.mem reg ^^^ m :=
    Nat.mod_eq_of_lt (Nat.xor_lt_two_pow (n := 8) hr hm)
  have h1 : (fio_digitalWrite_SWITCH s reg m).mem reg = s.mem reg ^^^ m := by
    simp [fio_digitalWrite_SWITCH, mem_store_same, hx]
  have h2 : (fio_digitalWrite_SWITCH (fio_digitalWrite_SWITCH s reg m) reg m).mem reg
      = s.mem reg := by
    have hxx : (s.mem reg ^^^ m ^^^ m) = s.mem reg := by
      rw [Nat.xor_assoc, Nat.xor_self, Nat.xor_zero]
    have : (fio_digitalWrite_SWITCH (fio_digitalWrite_SWITCH s reg m) reg m).mem reg
        = ((fio_digitalWrite_SWITCH s reg m).mem reg ^^^ m) % 256 := by
      simp [fio_digitalWrite_SWITCH, mem_store_same]
    rw [this, h1, hxx, Nat.mod_eq_of_lt hr]
  refine ⟨h2, ?_, ?_, ?_⟩
  · funext a
    by_cases ha : a = reg
    · rw [ha, h2]
    · simp [fio_digitalWrite_SWITCH, mem_store_other _ _ _ _ ha]
  · intro j
    rw [h1, Nat.testBit_xor]
    cases (s.mem reg).testBit j <;> cases m.testBit j <;> simp
  · intro a ha
    simp [fio_digitalWrite_SWITCH, mem_store_other _ _ _ _ ha]

/-- Witness for C8: toggling bits 0 and 1 of the demo register `0xA5` twice. -/
theorem C8_fio_digitalWrite_SWITCH_witness :
    (fio_digitalWrite_SWITCH (fio_digitalWrite_SWITCH demoMachine 0x25 3) 0x25 3).mem 0x25
      = 0xA5 :=
  (C8_fio_digitalWrite_SWITCH_twice_restores demoMachine 0x25 3 (by decide) (by decide)).1

/-! ## The pin resolver -/

/-- C9: `fio_pinToOutputRegister` always configures the pin as an output, first.
With the `SKIP` sentinel (`0x23`) that is all it does: no level write is issued
and no pin level changes.  With any other initial state exactly one level write,
`digitalWrite(pin, initial_state)`, follows the direction change, and it drives
the pin (`LOW` for `LOW`, `HIGH` for anything else). -/
theorem C9_fio_pinToOutputRegister_skip_sentinel (fallback : Bool)
    (portOutputRegister digitalPinToPort : Nat → Nat) (s : Machine)
    (pin initial_state : Nat) :
    SKIP = 0x23 ∧
    (fio_pinToOutputRegister fallback portOutputRegister digitalPinToPort s pin
      initial_state).1.pinModes pin = OUTPUT ∧
    (initial_state = SKIP →
      emitted s (fio_pinToOutputRegister fallback portOutputRegister digitalPinToPort s pin
        initial_state).1 = [⟨Op.pinMode pin OUTPUT, s.sreg⟩] ∧
      (fio_pinToOutputRegister fallback portOutputRegister digitalPinToPort s pin
        initial_state).1.pinLevels = s.pinLevels) ∧
    (initial_state ≠ SKIP →
      emitted s (fio_pinToOutputRegister fallback portOutputRegister digitalPinToPort s pin
        initial_state).1
        = [⟨Op.pinMode pin OUTPUT, s.sreg⟩, ⟨Op.digitalWrite pin initial_state, s.sreg⟩] ∧
      (fio_pinToOutputRegister fallback portOutputRegister digitalPinToPort s pin
        initial_state).1.pinLevels pin = (if initial_state = LOW then LOW else HIGH)) := by
  refine ⟨rfl, ?_, ?_, ?_⟩
  · by_cases h : initial_state = SKIP <;>
      simp [fio_pinToOutputRegister, h, pinMode, digitalWrite]
  · intro h
    simp [fio_pinToOutputRegister, h, pinMode, emitted]
  · intro h
    simp [fio_pinToOutputRegister, h, pinMode, digitalWrite, emitted]


/-! ## The bit period of Shift1 -/

/-- C10, as stated, fails: sending `0x80` (bit 7 set, bits 6..1 clear) on bit 0
of the demo register gives a first data pulse of `0 + 14` microseconds and six
more of `14 + 29` microseconds, so the data pulses of one call do not all have
the same LOW hold plus HIGH hold. -/
theorem C10_bit_period_counterexample :
    (pulses 0x25 (2 ^ 0) (demoMachine.mem 0x25)
        (emitted demoMachine (fio_shiftOut1 demoMachine 0x25 (2 ^ 0) 0x80))).take 7
      = [(0, 14), (14, 29), (14, 29), (14, 29), (14, 29), (14, 29), (14, 29)] ∧
    ¬ (∀ p ∈ (pulses 0x25 (2 ^ 0) (demoMachine.mem 0x25)
          (emitted demoMachine (fio_shiftOut1 demoMachine 0x25 (2 ^ 0) 0x80))).take 7,
        ∀ q ∈ (pulses 0x25 (2 ^ 0) (demoMachine.mem 0x25)
          (emitted demoMachine (fio_shiftOut1 demoMachine 0x25 (2 ^ 0) 0x80))).take 7,
        p.1 + p.2 = q.1 + q.2) := by
  rw [pulses_fio_shiftOut1 demoMachine 0x25 0 0x80 (by decide) (by decide)]
  refine ⟨by decide, ?_⟩
  intro h
  have h1 := h (0, 14) (by decide) (14, 29) (by decide)
  exact absurd h1 (by decide)

/-- C10, amended: every data bit of `fio_shiftOut1` has the period of its bit
value.  The k-th data pulse (k = 0..6) of a call is held LOW for 14 and HIGH for
29 microseconds (43 in all) when bit `7 - k` of the value is 0, and LOW for no
delay and HIGH for 14 microseconds (14 in all) when it is 1. -/
theorem C10_fio_shiftOut1_period_per_bit_value (s : Machine) (reg k value i : Nat)
    (hk : k < 8) (hv : value < 256) (hi : i < 7) :
    ∃ p, (pulses reg (2 ^ k) (s.mem reg)
        (emitted s (fio_shiftOut1 s reg (2 ^ k) value)))[i]? = some p ∧
      (bitOf value (7 - i) = 0 → p = (14, 29) ∧ p.1 + p.2 = 43) ∧
      (bitOf value (7 - i) = 1 → p = (0, 14) ∧ p.1 + p.2 = 14) ∧
      (bitOf value (7 - i) = 0 ∨ bitOf value (7 - i) = 1) := by
  rw [pulses_fio_shiftOut1 s reg k value hk hv]
  have hd : ∀ j, (bitOf value j = 0 → dataPulse (bitOf value j) = (14, 29)
        ∧ (dataPulse (bitOf value j)).1 + (dataPulse (bitOf value j)).2 = 43) ∧
      (bitOf value j = 1 → dataPulse (bitOf value j) = (0, 14)
        ∧ (dataPulse (bitOf value j)).1 + (dataPulse (bitOf value j)).2 = 14) ∧
      (bitOf value j = 0 ∨ bitOf value j = 1) := by
    intro j
    refine ⟨fun h => ?_, fun h => ?_, ?_⟩
    · rw [h]; exact ⟨rfl, rfl⟩
    · rw [h]; exact ⟨rfl, rfl⟩
    · unfold bitOf; exact Nat.mod_two_eq_zero_or_one _
  interval_cases i
  · exact ⟨_, rfl, hd 7⟩
  · exact ⟨_, rfl, hd 6⟩
  · exact ⟨_, rfl, hd 5⟩
  · exact ⟨_, rfl, hd 4⟩
  · exact ⟨_, rfl, hd 3⟩
  · exact ⟨_, rfl, hd 2⟩
  · exact ⟨_, rfl, hd 1⟩

/-- Witness for the amended C10: the second data pulse of `0x80`, a 0 bit. -/
theorem C10_fio_shiftOut1_period_witness :
    ∃ p, (pulses 0x25 (2 ^ 0) (demoMachine.mem 0x25)
        (emitted demoMachine (fio_shiftOut1 demoMachine 0x25 (2 ^ 0) 0x80)))[1]? = some p ∧
      (bitOf 0x80 (7 - 1) = 0 → p = (14, 29) ∧ p.1 + p.2 = 43) ∧
      (bitOf 0x80 (7 - 1) = 1 → p = (0, 14) ∧ p.1 + p.2 = 14) ∧
      (bitOf 0x80 (7 - 1) = 0 ∨ bitOf 0x80 (7 - 1) = 1) :=
  C10_fio_shiftOut1_period_per_bit_value demoMachine 0x25 0 0x80 1
    (by decide) (by decide) (by decide)


/-! ## The Shift1 line between calls -/

theorem pulse_value (r m : Nat) :
    (((r &&& (m ^^^ 0xFFFF)) % 256) ||| m) % 256 = (r ||| m) % 256 := by
  apply byte_eq_of_testBit (Nat.mod_lt _ (by norm_num)) (Nat.mod_lt _ (by norm_num))
  intro j hj
  rw [testBit_set _ _ _ hj, testBit_set _ _ _ hj, testBit_clear _ _ _ hj]
  cases r.testBit j <;> cases m.testBit j <;> rfl

theorem set_value_idem (r m : Nat) : (((r ||| m) % 256) ||| m) % 256 = (r ||| m) % 256 := by
  apply byte_eq_of_testBit (Nat.mod_lt _ (by norm_num)) (Nat.mod_lt _ (by norm_num))
  intro j hj
  rw [testBit_set _ _ _ hj, testBit_set _ _ _ hj]
  cases r.testBit j <;> cases m.testBit j <;> rfl

theorem mem_LOW (s : Machine) (reg bit : Nat) :
    (fio_digitalWrite_LOW s reg bit).mem
      = Function.update s.mem reg ((s.mem reg &&& (bit ^^^ 0xFFFF)) % 256) := rfl

theorem mem_HIGH (s : Machine) (reg bit : Nat) :
    (fio_digitalWrite_HIGH s reg bit).mem
      = Function.update s.mem reg ((s.mem reg ||| bit) % 256) := rfl

theorem mem_delay (s : Machine) (us : Nat) : (delayMicroseconds s us).mem = s.mem := rfl

/-- A LOW write followed, with or without a delay between, by a HIGH write of
the same mask leaves the register with the bits of the mask set and nothing
else changed. -/
theorem mem_pulse (s s1 : Machine) (reg bit : Nat)
    (h1 : s1.mem = (fio_digitalWrite_LOW s reg bit).mem) :
    (fio_digitalWrite_HIGH s1 reg bit).mem
      = Function.update s.mem reg ((s.mem reg ||| bit) % 256) := by
  rw [mem_HIGH, h1, mem_LOW]
  simp only [Function.update_same, Function.update_idem]
  rw [pulse_value]

theorem fio_shiftOut1_body_mem (reg bit value i : Nat) (s : Machine) :
    (fio_shiftOut1_body reg bit value s i).mem
      = Function.update s.mem reg ((s.mem reg ||| bit) % 256) := by
  by_cases hb : value.testBit i = true
  · rw [fio_shiftOut1_body_one reg bit value i s hb, mem_delay]
    exact mem_pulse s _ reg bit rfl
  · rw [fio_shiftOut1_body_zero reg bit value i s (by simpa using hb), mem_delay]
    exact mem_pulse s _ reg bit (mem_delay _ _)

theorem fio_shiftOut1_loop_mem (reg bit value : Nat) (i : Nat) :
    ∀ s : Machine, (fio_shiftOut1_loop reg bit value i s).mem
      = if i = 0 then s.mem else Function.update s.mem reg ((s.mem reg ||| bit) % 256) := by
  induction i with
  | zero => intro s; rfl
  | succ i ih =>
    intro s
    show (fio_shiftOut1_loop reg bit value i (fio_shiftOut1_body reg bit value s (i + 1))).mem = _
    rw [ih, fio_shiftOut1_body_mem]
    by_cases h0 : i = 0
    · simp [h0]
    · simp [h0, set_value_idem]

/-- The port registers after one call of `fio_shiftOut1`: the bits of the mask
are set in the addressed register and nothing else has changed. -/
theorem fio_shiftOut1_mem (s : Machine) (reg bit value : Nat) :
    (fio_shiftOut1 s reg bit value).mem
      = Function.update s.mem reg ((s.mem reg ||| bit) % 256) := by
  have key : (fio_shiftOut1 s reg bit value).mem
      = (fio_digitalWrite_HIGH (delayMicroseconds
          (fio_digitalWrite_LOW (fio_shiftOut1_loop reg bit value 7 (cli s)) reg bit)
          199) reg bit).mem := rfl
  rw [key, mem_pulse (fio_shiftOut1_loop reg bit value 7 (cli s)) _ reg bit (mem_delay _ _),
    fio_shiftOut1_loop_mem]
  have hc : (cli s).mem = s.mem := rfl
  simp [hc, set_value_idem]

theorem fio_shiftOut1_init_mem (s : Machine) (reg bit : Nat) :
    (fio_shiftOut1_init s reg bit).mem
      = Function.update s.mem reg ((s.mem reg ||| bit) % 256) := by
  have key : fio_shiftOut1_init s reg bit
      = delayMicroseconds (fio_digitalWrite_HIGH s reg bit) 300 := by
    simp [fio_shiftOut1_init, fio_digitalWrite, HIGH, LOW]
  rw [key, mem_delay, mem_HIGH]

theorem fio_shiftOut1_sends_mem (reg bit : Nat) (vs : List Nat) :
    ∀ s0 s : Machine, s.mem = Function.update s0.mem reg ((s0.mem reg ||| bit) % 256) →
    (vs.foldl (fun st v => fio_shiftOut1 st reg bit v) s).mem
      = Function.update s0.mem reg ((s0.mem reg ||| bit) % 256) := by
  induction vs with
  | nil => intro s0 s h; exact h
  | cons v vs ih =>
    intro s0 s h
    rw [List.foldl_cons]
    apply ih
    rw [fio_shiftOut1_mem, h]
    simp [set_value_idem]

theorem read_set_value (r k : Nat) (hk : k < 8) :
    fio_digitalRead ((r ||| 2 ^ k) % 256) (2 ^ k) = HIGH := by
  rw [fio_digitalRead_two_pow, testBit_set _ _ _ hk]
  simp [Nat.testBit_two_pow]

/-- C11: the Shift1 line is HIGH at every call boundary.  For a register that
holds a byte and a single-bit mask, `fio_shiftOut1_init` leaves the addressed
bit HIGH; `fio_shiftOut1` leaves it HIGH for every byte, with every other bit of
the register and every other register unchanged; and after one init followed by
any sequence of sends the line is HIGH. -/
theorem C11_shift1_line_high_at_call_boundaries (s : Machine) (reg k : Nat)
    (hk : k < 8) (hr : s.mem reg < 256) :
    fio_digitalRead ((fio_shiftOut1_init s reg (2 ^ k)).mem reg) (2 ^ k) = HIGH ∧
    (∀ value,
      fio_digitalRead ((fio_shiftOut1 s reg (2 ^ k) value).mem reg) (2 ^ k) = HIGH ∧
      (fio_shiftOut1 s reg (2 ^ k) value).mem reg = s.mem reg ||| 2 ^ k ∧
      (∀ j, j ≠ k →
        ((fio_shiftOut1 s reg (2 ^ k) value).mem reg).testBit j = (s.mem reg).testBit j) ∧
      (∀ a, a ≠ reg → (fio_shiftOut1 s reg (2 ^ k) value).mem a = s.mem a)) ∧
    (∀ values : List Nat,
      fio_digitalRead
        ((values.foldl (fun st v => fio_shiftOut1 st reg (2 ^ k) v)
          (fio_shiftOut1_init s reg (2 ^ k))).mem reg) (2 ^ k) = HIGH) := by
  have hm : 2 ^ k < 256 := by
    calc 2 ^ k < 2 ^ 8 := Nat.pow_lt_pow_right (by norm_num) hk
      _ = 256 := by norm_num
  have hor : (s.mem reg ||| 2 ^ k) % 256 = s.mem reg ||| 2 ^ k :=
    Nat.mod_eq_of_lt (Nat.or_lt_two_pow (n := 8) hr hm)
  refine ⟨?_, ?_, ?_⟩
  · rw [fio_shiftOut1_init_mem, Function.update_same]
    exact read_set_value _ _ hk
  · intro value
    rw [fio_shiftOut1_mem, Function.update_same]
    refine ⟨read_set_value _ _ hk, hor, ?_, ?_⟩
    · intro j hjk
      rw [hor, Nat.testBit_or, Nat.testBit_two_pow]
      simp [Ne.symm hjk]
    · intro a ha
      exact Function.update_noteq ha _ _
  · intro values
    rw [fio_shiftOut1_sends_mem reg (2 ^ k) values s _ (fio_shiftOut1_init_mem s reg (2 ^ k)),
      Function.update_same]
    exact read_set_value _ _ hk

/-- Witness for C11: init and three sends on bit 1 of the demo register `0xA5`. -/
theorem C11_shift1_line_witness :
    fio_digitalRead
      (([0x00, 0xFF, 0xB2].foldl (fun st v => fio_shiftOut1 st 0x25 (2 ^ 1) v)
        (fio_shiftOut1_init demoMachine 0x25 (2 ^ 1))).mem 0x25) (2 ^ 1) = HIGH ∧
    (fio_shiftOut1 demoMachine 0x25 (2 ^ 1) 0xB2).mem 0x25 = 0xA7 := by
  have h := C11_shift1_line_high_at_call_boundaries demoMachine 0x25 1 (by decide) (by decide)
  refine ⟨h.2.2 [0x00, 0xFF, 0xB2], ?_⟩
  rw [(h.2.1 0xB2).2.1]
  decide


/-! ## The zero-fill overload against `fio_shiftOut` with value 0 -/

theorem mem_SWITCH (s : Machine) (reg bit : Nat) :
    (fio_digitalWrite_SWITCH s reg bit).mem
      = Function.update s.mem reg ((s.mem reg ^^^ bit) % 256) := rfl

theorem fio_digitalWrite_zero (s : Machine) (reg bit i : Nat) :
    fio_digitalWrite s reg bit (cNot (cNot (0 &&& (1 <<< i)))) = fio_digitalWrite_LOW s reg bit := by
  simp [fio_digitalWrite, cNot, LOW]

/-- Clearing a bit that is already clear in a register holding a byte changes
no port register. -/
theorem mem_LOW_noop (s : Machine) (reg k : Nat) (hr : s.mem reg < 256)
    (hlow : (s.mem reg).testBit k = false) :
    (fio_digitalWrite_LOW s reg (2 ^ k)).mem = s.mem := by
  rw [mem_LOW]
  have hv : (s.mem reg &&& (2 ^ k ^^^ 0xFFFF)) % 256 = s.mem reg := by
    apply byte_eq_of_testBit (Nat.mod_lt _ (by norm_num)) hr
    intro j hj
    rw [testBit_clear _ _ _ hj, Nat.testBit_two_pow]
    by_cases hkj : k = j
    · subst hkj; simp [hlow]
    · simp [hkj]
  rw [hv, Function.update_eq_self]

theorem lt_256_after_update (m : Nat → Nat) (reg x a : Nat) (ha : m a < 256) :
    Function.update m reg (x % 256) a < 256 := by
  by_cases h : a = reg
  · subst h; rw [Function.update_same]; exact Nat.mod_lt _ (by norm_num)
  · rw [Function.update_noteq h]; exact ha

/-- From two states with the same port registers, in which the data register
holds a byte with the data bit clear, the loop of `fio_shiftOut` for the value 0
and the loop of the zero-fill overload leave the same port registers. -/
theorem fio_shiftOut_loops_mem_eq (dR a cR c : Nat)
    (ha : a < 8) (hd : dR ≠ cR ∨ a ≠ c) (n : Nat) :
    ∀ s z : Machine, s.mem = z.mem → z.mem dR < 256 → (z.mem dR).testBit a = false →
    (fio_shiftOut_loop dR (2 ^ a) cR (2 ^ c) 0 n s).mem
      = (fio_shiftOut_zero_loop cR (2 ^ c) n z).mem := by
  have hdc : ¬ (dR = cR ∧ a = c) := by
    rintro ⟨h1, h2⟩
    rcases hd with h | h
    · exact h h1
    · exact h h2
  induction n with
  | zero => intro s z h _ _; exact h
  | succ n ih =>
    intro s z h hz hlow
    show (fio_shiftOut_loop dR (2 ^ a) cR (2 ^ c) 0 n
        (fio_digitalWrite_SWITCH (fio_digitalWrite_HIGH
          (fio_digitalWrite s dR (2 ^ a) (cNot (cNot (0 &&& (1 <<< n))))) cR (2 ^ c))
          cR (2 ^ c))).mem
      = (fio_shiftOut_zero_loop cR (2 ^ c) n
          (fio_digitalWrite_SWITCH (fio_digitalWrite_HIGH z cR (2 ^ c)) cR (2 ^ c))).mem
    rw [fio_digitalWrite_zero]
    have h1 : (fio_digitalWrite_LOW s dR (2 ^ a)).mem = z.mem := by
      rw [mem_LOW_noop s dR a (by rw [h]; exact hz) (by rw [h]; exact hlow), h]
    apply ih
    · rw [mem_SWITCH, mem_SWITCH, mem_HIGH, mem_HIGH, h1]
    · rw [mem_SWITCH]
      apply lt_256_after_update
      rw [mem_HIGH]
      exact lt_256_after_update _ _ _ _ hz
    · rw [level_after_SWITCH _ _ _ _ _ ha, level_after_HIGH _ _ _ _ _ ha]
      simp [hdc, hlow]

/-- C12: the zero-fill `fio_shiftOut` is equivalent to `fio_shiftOut` with the
value 0.  From every state, with data and clock on distinct single-bit lines,
both leave the same port registers, and a recorder sees the same sequence of
clock edges with the same data level at each. -/
theorem C12_fio_shiftOut_zero_equivalent (s : Machine) (dR a cR c : Nat)
    (ha : a < 8) (hc : c < 8) (hd : dR ≠ cR ∨ a ≠ c) :
    (fio_shiftOut_zero s dR (2 ^ a) cR (2 ^ c)).mem
      = (fio_shiftOut s dR (2 ^ a) cR (2 ^ c) 0).mem ∧
    clockEdges dR (2 ^ a) cR (2 ^ c) s.mem
        (emitted s (fio_shiftOut_zero s dR (2 ^ a) cR (2 ^ c)))
      = clockEdges dR (2 ^ a) cR (2 ^ c) s.mem
        (emitted s (fio_shiftOut s dR (2 ^ a) cR (2 ^ c) 0)) ∧
    risingSamples dR (2 ^ a) cR (2 ^ c) s.mem
        (emitted s (fio_shiftOut_zero s dR (2 ^ a) cR (2 ^ c)))
      = risingSamples dR (2 ^ a) cR (2 ^ c) s.mem
        (emitted s (fio_shiftOut s dR (2 ^ a) cR (2 ^ c) 0)) := by
  have hdc : ¬ (dR = cR ∧ a = c) := by
    rintro ⟨h1, h2⟩
    rcases hd with h | h
    · exact h h1
    · exact h h2
  have hz : fio_shiftOut_zero s dR (2 ^ a) cR (2 ^ c)
      = fio_shiftOut_zero_loop cR (2 ^ c) 7
          (fio_digitalWrite_SWITCH (fio_digitalWrite_HIGH
            (fio_digitalWrite_LOW s dR (2 ^ a)) cR (2 ^ c)) cR (2 ^ c)) := rfl
  have hv : fio_shiftOut s dR (2 ^ a) cR (2 ^ c) 0
      = fio_shiftOut_loop dR (2 ^ a) cR (2 ^ c) 0 7
          (fio_digitalWrite_SWITCH (fio_digitalWrite_HIGH
            (fio_digitalWrite_LOW s dR (2 ^ a)) cR (2 ^ c)) cR (2 ^ c)) := by
    rw [← fio_digitalWrite_zero s dR (2 ^ a) 7]; rfl
  rw [hz, hv]
  generalize hs1 : fio_digitalWrite_LOW s dR (2 ^ a) = s1
  generalize hs2 : fio_digitalWrite_HIGH s1 cR (2 ^ c) = s2
  generalize hs3 : fio_digitalWrite_SWITCH s2 cR (2 ^ c) = s3
  have sh1 := shape_LOW s dR (2 ^ a)
  have sh2 := shape_HIGH s1 cR (2 ^ c)
  have sh3 := shape_SWITCH s2 cR (2 ^ c)
  rw [hs1] at sh1; rw [hs2] at sh2; rw [hs3] at sh3
  have m1 : Function.update s.mem dR (s1.mem dR) = s1.mem := sh1.2.1.symm
  have m2 : Function.update s1.mem cR (s2.mem cR) = s2.mem := sh2.2.1.symm
  have m3 : Function.update s2.mem cR (s3.mem cR) = s3.mem := sh3.2.1.symm
  have b1 : s1.mem dR < 256 := by
    rw [← hs1, mem_LOW, Function.update_same]; exact Nat.mod_lt _ (by norm_num)
  have b2 : s2.mem dR < 256 := by
    rw [← hs2, mem_HIGH]; exact lt_256_after_update _ _ _ _ b1
  have b3 : s3.mem dR < 256 := by
    rw [← hs3, mem_SWITCH]; exact lt_256_after_update _ _ _ _ b2
  have d1 : (s1.mem dR).testBit a = false := by
    rw [← hs1, level_after_LOW _ _ _ _ _ ha]; simp
  have d2 : (s2.mem dR).testBit a = false := by
    rw [← hs2, level_after_HIGH _ _ _ _ _ ha]; simp [hdc, d1]
  have d3 : (s3.mem dR).testBit a = false := by
    rw [← hs3, level_after_SWITCH _ _ _ _ _ ha]; simp [hdc, d2]
  have c2 : (s2.mem cR).testBit c = true := by
    rw [← hs2, level_after_HIGH _ _ _ _ _ hc]; simp
  have c3 : (s3.mem cR).testBit c = false := by
    rw [← hs3, level_after_SWITCH _ _ _ _ _ hc]; simp [c2]
  have hp : s3.trace = s.trace ++ ([⟨Op.store dR (s1.mem dR), s.sreg⟩]
      ++ ([⟨Op.store cR (s2.mem cR), s1.sreg⟩] ++ [⟨Op.store cR (s3.mem cR), s2.sreg⟩])) := by
    rw [sh3.1, sh2.1, sh1.1]; simp
  have hrep : replay s.mem ([⟨Op.store dR (s1.mem dR), s.sreg⟩]
      ++ ([⟨Op.store cR (s2.mem cR), s1.sreg⟩] ++ [⟨Op.store cR (s3.mem cR), s2.sreg⟩]))
      = s3.mem := by
    rw [replay_append, replay_append]
    simp only [replay_store, m1, m2, m3]
  obtain ⟨t1, ht1, _, he1, _⟩ := fio_shiftOut_loop_edges dR a cR c 0 ha hc hd 7 s3 c3
  obtain ⟨t2, ht2, _, he2, _, _⟩ := fio_shiftOut_zero_loop_edges dR a cR c ha hc hd 7 s3 c3 d3
  have hmem : (fio_shiftOut_zero_loop cR (2 ^ c) 7 s3).mem
      = (fio_shiftOut_loop dR (2 ^ a) cR (2 ^ c) 0 7 s3).mem :=
    (fio_shiftOut_loops_mem_eq dR a cR c ha hd 7 s3 s3 rfl b3 d3).symm
  have hbits : msbFirst 0 7 = List.replicate 7 LOW := by decide
  obtain ⟨p, hp', hrep'⟩ : ∃ p, s3.trace = s.trace ++ p ∧ replay s.mem p = s3.mem :=
    ⟨_, hp, hrep⟩
  have e1 : (fio_shiftOut_loop dR (2 ^ a) cR (2 ^ c) 0 7 s3).trace = s.trace ++ (p ++ t1) := by
    rw [ht1, hp', List.append_assoc]
  have e2 : (fio_shiftOut_zero_loop cR (2 ^ c) 7 s3).trace = s.trace ++ (p ++ t2) := by
    rw [ht2, hp', List.append_assoc]
  have hedges : clockEdges dR (2 ^ a) cR (2 ^ c) s.mem
        (emitted s (fio_shiftOut_zero_loop cR (2 ^ c) 7 s3))
      = clockEdges dR (2 ^ a) cR (2 ^ c) s.mem
        (emitted s (fio_shiftOut_loop dR (2 ^ a) cR (2 ^ c) 0 7 s3)) := by
    rw [emitted_eq e1, emitted_eq e2, clockEdges_append, clockEdges_append,
      hrep', he1, he2, hbits]
  refine ⟨hmem, hedges, ?_⟩
  unfold risingSamples
  rw [hedges]

/-- Witness for C12: both overloads run from the demo board, data on bit 0 and
clock on bit 1 of the same port register. -/
theorem C12_fio_shiftOut_zero_witness :
    (fio_shiftOut_zero demoMachine 0x25 (2 ^ 0) 0x25 (2 ^ 1)).mem
      = (fio_shiftOut demoMachine 0x25 (2 ^ 0) 0x25 (2 ^ 1) 0).mem :=
  (C12_fio_shiftOut_zero_equivalent demoMachine 0x25 0 0x25 1 (by decide) (by decide)
    (Or.inr (by decide))).1

/-! ## The cursor address -/

theorem setCursor_row_eq_min (lcd : LCD) (row : Nat) (h1 : 1 ≤ lcd._numlines)
    (h4 : lcd._numlines ≤ 4) :
    lcd.setCursor_row row = min row (lcd._numlines - 1) := by
  unfold LCD.setCursor_row
  by_cases h : row ≥ lcd._numlines
  · rw [if_pos h]
    have hmin : min row (lcd._numlines - 1) = lcd._numlines - 1 := by
      apply Nat.min_eq_right; omega
    rw [hmin]
    omega
  · rw [if_neg h]
    have hmin : min row (lcd._numlines - 1) = row := by
      apply Nat.min_eq_left; omega
    rw [hmin]

theorem getElem?_of_lt_four (l : List Nat) (hl : l.length = 4) (i : Nat) (hi : i < 4) :
    ∃ x, l[i]? = some x := by
  have h : i < l.length := by omega
  exact ⟨l[i], List.getElem?_eq_getElem h⟩

/-- C13: in `LCD::setCursor`, for a line count between 1 and 4, the row used
to index the 4-entry table is `min(row, _numlines - 1)`, which is less than 4,
so the read is in bounds; the table is `row_offsetsLarge` exactly when
`_cols = 16` and `_numlines = 4` and `row_offsetsDef` otherwise; and the one
command sent is `LCD_SETDDRAMADDR` or-ed with `col` plus that table entry, as a
byte. -/
theorem C13_setCursor_row_in_bounds (LCD_SETDDRAMADDR : Nat) (lcd : LCD) (col row : Nat)
    (h1 : 1 ≤ lcd._numlines) (h4 : lcd._numlines ≤ 4) :
    lcd.setCursor_row row = min row (lcd._numlines - 1) ∧
    min row (lcd._numlines - 1) < 4 ∧
    ∃ offset,
      (if lcd._cols = 16 ∧ lcd._numlines = 4 then row_offsetsLarge
        else row_offsetsDef)[min row (lcd._numlines - 1)]? = some offset ∧
      lcd.setCursor LCD_SETDDRAMADDR col row
        = some (lcd.command (LCD_SETDDRAMADDR ||| (col + offset))) ∧
      (lcd.command (LCD_SETDDRAMADDR ||| (col + offset))).commands
        = lcd.commands ++ [(LCD_SETDDRAMADDR ||| (col + offset)) % 256] := by
  have hrow := setCursor_row_eq_min lcd row h1 h4
  have hlt : min row (lcd._numlines - 1) < 4 := by
    have : min row (lcd._numlines - 1) ≤ lcd._numlines - 1 := Nat.min_le_right _ _
    omega
  refine ⟨hrow, hlt, ?_⟩
  by_cases hc : lcd._cols = 16 ∧ lcd._numlines = 4
  · obtain ⟨x, hx⟩ := getElem?_of_lt_four row_offsetsLarge rfl _ hlt
    refine ⟨x, ?_, ?_, rfl⟩
    · rw [if_pos hc]; exact hx
    · unfold LCD.setCursor
      simp only [hrow, if_pos hc, hx]
  · obtain ⟨x, hx⟩ := getElem?_of_lt_four row_offsetsDef rfl _ hlt
    refine ⟨x, ?_, ?_, rfl⟩
    · rw [if_neg hc]; exact hx
    · unfold LCD.setCursor
      simp only [hrow, if_neg hc, hx]

/-- Witness for C13: `setCursor(3, 9)` on a 16x4 display is clamped to row 3
and sends `LCD_SETDDRAMADDR | (3 + 0x50)`, here with the command code `0x80`. -/
theorem C13_setCursor_witness :
    demoLCD16x4.setCursor_row 9 = 3 ∧
    demoLCD16x4.setCursor 0x80 3 9 = some (demoLCD16x4.command (0x80 ||| (3 + 0x50))) := by
  obtain ⟨hrow, _, offset, hoff, hset, _⟩ :=
    C13_setCursor_row_in_bounds 0x80 demoLCD16x4 3 9 (by decide) (by decide)
  have ho : offset = 0x50 := by
    have h : (some 0x50 : Option Nat) = some offset := hoff
    exact (Option.some.inj h).symm
  subst ho
  exact ⟨hrow, hset⟩

end Fio
